import Mathlib

/-!
# InstantCalc: the inline arithmetic evaluator of `content.js`

A shallow embedding of the algorithmic core of `src/content.js`:

* the bracket scanner (`MATH_PATTERN`, used by `matchAll` and `replace`),
* `processElement` (patch loop and cursor remap),
* `evaluateExpression` / `resolveNested`,
* `sanitizeInput`, `tokenize`, `infixToPostfix`, `evaluatePostfix`, `formatResult`.

Conventions.

* A JavaScript string is a `List Char`; one `Char` stands for one UTF-16 code unit,
  so `length`, `slice` and match indices count list positions.
* A JavaScript Number is an `F64`: NaN, the two infinities, or a finite value
  `(-1)^neg * m * 2^e`.  Arithmetic is computed exactly and then rounded to the
  nearest binary64 value (ties to even), as IEEE-754 prescribes.
* Selection offsets are integers (`Int`): the source does not validate them.
* Arrays used as stacks are lists whose head is the top of the stack.
-/

namespace InstantCalc

/-- A JavaScript string, one `Char` per code unit. -/
abbrev Str := List Char

/-! ## Numbers -/

/-- An ECMAScript Number: `fin neg m e` is the finite value `(-1)^neg * m * 2^e`
(so `fin true 0 e` is the negative zero). -/
inductive F64 where
  | nan : F64
  | inf (neg : Bool) : F64
  | fin (neg : Bool) (m : Nat) (e : Int) : F64
  deriving DecidableEq

/-- The JavaScript values the evaluator handles: `undefined` or a Number. -/
inductive JSVal where
  | undefined : JSVal
  | number (x : F64) : JSVal
  deriving DecidableEq

/-- Number of binary digits of `n`, by halving (`fuel` bounds the loop). -/
def bitLenAux : Nat → Nat → Nat
  | 0, _ => 0
  | fuel + 1, n => if n = 0 then 0 else bitLenAux fuel (n / 2) + 1

/-- Number of binary digits of `n` (0 for 0). -/
def bitLen (n : Nat) : Nat := bitLenAux n n

/-- Packs a rounded significand: zero keeps its sign, a value of 2^1024 or more
overflows to an infinity. -/
def packF64 (neg : Bool) (q : Nat) (e : Int) : F64 :=
  if q = 0 then F64.fin neg 0 0
  else if (bitLen q : Int) + e > 1024 then F64.inf neg
  else F64.fin neg q e

/-- Rounds the magnitude `(m + f) * 2^e`, where `0 ≤ f < 1` and `sticky` says
whether `f ≠ 0`, to the nearest binary64 value, ties to even: at most 53
significant bits, and no bit below `2^-1074`. -/
def roundF64 (neg : Bool) (m : Nat) (e : Int) (sticky : Bool) : F64 :=
  let drop : Int := max ((bitLen m : Int) - 53) (-1074 - e)
  if drop ≤ 0 then packF64 neg m e
  else
    let d := drop.toNat
    let q := m / 2 ^ d
    let r := m % 2 ^ d
    let half := 2 ^ (d - 1)
    let up : Bool := decide (half < r) || (decide (r = half) && (sticky || decide (q % 2 = 1)))
    packF64 neg (if up then q + 1 else q) (e + drop)

/-- Rounds the quotient `(num / den) * 2^e` of two naturals (`den ≠ 0`) to
binary64: the quotient is computed to at least 56 bits plus a sticky bit. -/
def roundRatio (neg : Bool) (num den : Nat) (e : Int) : F64 :=
  if num = 0 then F64.fin neg 0 0
  else
    let k := bitLen den + 55
    let n := num * 2 ^ k
    roundF64 neg (n / den) (e - k) (decide (n % den ≠ 0))

/-- The integer `(-1)^neg * m`. -/
def signed (neg : Bool) (m : Nat) : Int := if neg then -(m : Int) else (m : Int)

/-- Unary minus. -/
def F64.neg : F64 → F64
  | F64.nan => F64.nan
  | F64.inf s => F64.inf (!s)
  | F64.fin s m e => F64.fin (!s) m e

/-- JavaScript `a + b` on Numbers. -/
def F64.add : F64 → F64 → F64
  | F64.nan, _ => F64.nan
  | _, F64.nan => F64.nan
  | F64.inf a, F64.inf b => if a = b then F64.inf a else F64.nan
  | F64.inf a, F64.fin _ _ _ => F64.inf a
  | F64.fin _ _ _, F64.inf b => F64.inf b
  | F64.fin n1 m1 e1, F64.fin n2 m2 e2 =>
    let e := min e1 e2
    let s := signed n1 (m1 * 2 ^ (e1 - e).toNat) + signed n2 (m2 * 2 ^ (e2 - e).toNat)
    if s = 0 then F64.fin (n1 && n2) 0 0
    else roundF64 (decide (s < 0)) s.natAbs e false

/-- JavaScript `a - b` on Numbers. -/
def F64.sub (a b : F64) : F64 := F64.add a (F64.neg b)

/-- JavaScript `a * b` on Numbers. -/
def F64.mul : F64 → F64 → F64
  | F64.nan, _ => F64.nan
  | _, F64.nan => F64.nan
  | F64.inf a, F64.inf b => F64.inf (xor a b)
  | F64.inf a, F64.fin b m _ => if m = 0 then F64.nan else F64.inf (xor a b)
  | F64.fin a m _, F64.inf b => if m = 0 then F64.nan else F64.inf (xor a b)
  | F64.fin n1 m1 e1, F64.fin n2 m2 e2 => roundF64 (xor n1 n2) (m1 * m2) (e1 + e2) false

/-- JavaScript `a / b` on Numbers: a non-zero value divided by zero is an infinity,
`0 / 0` is NaN. -/
def F64.div : F64 → F64 → F64
  | F64.nan, _ => F64.nan
  | _, F64.nan => F64.nan
  | F64.inf _, F64.inf _ => F64.nan
  | F64.inf a, F64.fin b _ _ => F64.inf (xor a b)
  | F64.fin a _ _, F64.inf b => F64.fin (xor a b) 0 0
  | F64.fin n1 m1 e1, F64.fin n2 m2 e2 =>
    if m2 = 0 then (if m1 = 0 then F64.nan else F64.inf (xor n1 n2))
    else roundRatio (xor n1 n2) m1 m2 (e1 - e2)

/-- JavaScript `a % b` on Numbers: the remainder of the truncating division,
with the sign of the dividend; it is exact. -/
def F64.rem : F64 → F64 → F64
  | F64.nan, _ => F64.nan
  | _, F64.nan => F64.nan
  | F64.inf _, _ => F64.nan
  | F64.fin n1 m1 e1, F64.inf _ => F64.fin n1 m1 e1
  | F64.fin n1 m1 e1, F64.fin _ m2 e2 =>
    if m2 = 0 then F64.nan
    else
      let e := min e1 e2
      roundF64 n1 ((m1 * 2 ^ (e1 - e).toNat) % (m2 * 2 ^ (e2 - e).toNat)) e false

/-- The test `Number.isInteger`. -/
def F64.isInteger : F64 → Bool
  | F64.fin _ m e => if 0 ≤ e then true else decide (m % 2 ^ (-e).toNat = 0)
  | _ => false

/-- Integer part of the magnitude `m * 2^e`. -/
def intMag (m : Nat) (e : Int) : Nat :=
  if 0 ≤ e then m * 2 ^ e.toNat else m / 2 ^ (-e).toNat

/-- Whether two magnitudes `m1 * 2^e1` and `m2 * 2^e2` are the same number. -/
def sameMag (m1 : Nat) (e1 : Int) (m2 : Nat) (e2 : Int) : Bool :=
  let e := min e1 e2
  decide (m1 * 2 ^ (e1 - e).toNat = m2 * 2 ^ (e2 - e).toNat)

/-- Whether the natural number `v` rounds to the binary64 magnitude `m * 2^e`. -/
def roundsTo (v : Nat) (m : Nat) (e : Int) : Bool :=
  match roundF64 false v 0 false with
  | F64.fin _ m2 e2 => sameMag m e m2 e2
  | _ => false

/-- Value of a string of decimal digits. -/
def digitsToNat (ds : Str) : Nat := ds.foldl (fun acc c => 10 * acc + (c.toNat - 48)) 0

/-- The call `parseFloat` on a numeral the tokenizer matched: integer digits `ip`, fraction
digits `fp` (either may be empty, not both); the decimal value, rounded. -/
def parseFloat (ip fp : Str) : F64 :=
  roundRatio false (digitsToNat (ip ++ fp)) (10 ^ fp.length) 0

/-! ## Number to text -/

/-- Decimal digits of a natural number. -/
def natDigits (n : Nat) : Str := Nat.toDigits 10 n

/-- Removes the zeros at the end of a digit string. -/
def dropTrailingZeros (ds : Str) : Str := (ds.reverse.dropWhile (fun c => c == '0')).reverse

/-- Search for the shortest decimal that rounds to the magnitude `m * 2^e`, whose
integer value is `v` and has `d` decimal digits: the candidates with `k`
significant digits are the two multiples of `10^(d-k)` around `v`; the nearer
one wins, the even one on a tie.  Returns the decimal value chosen. -/
def shortestDecimal (m : Nat) (e : Int) (v d : Nat) : Nat → Nat → Nat
  | 0, _ => v
  | fuel + 1, k =>
    if d ≤ k then v
    else
      let p := 10 ^ (d - k)
      let lo := (v / p) * p
      let hi := lo + p
      let okLo := roundsTo lo m e
      let okHi := roundsTo hi m e
      if okLo && okHi then
        (if v - lo < hi - v then lo
         else if hi - v < v - lo then hi
         else if (v / p) % 2 = 0 then lo else hi)
      else if okLo then lo
      else if okHi then hi
      else shortestDecimal m e v d fuel (k + 1)

/-- The digits of `Number::toString` for a positive integral magnitude
`m * 2^e`: the shortest decimal that reads back as the same Number, written in
full below `10^21` and in exponent form from there on. -/
def magToString (m : Nat) (e : Int) : Str :=
  let v := intMag m e
  let d := (natDigits v).length
  let w := shortestDecimal m e v d d 1
  let ds := natDigits w
  if w < 10 ^ 21 then ds
  else
    match dropTrailingZeros ds with
    | [] => ds
    | [c] => c :: 'e' :: '+' :: natDigits (ds.length - 1)
    | c :: cs => c :: '.' :: (cs ++ 'e' :: '+' :: natDigits (ds.length - 1))

/-- The method `Number.prototype.toString` (radix 10) on an integral Number, the
only case `formatResult` reaches (behind `Number.isInteger`).  For a finite
argument the integer part of the magnitude is rendered. -/
def F64.toStr : F64 → Str
  | F64.nan => "NaN".toList
  | F64.inf neg => if neg then "-Infinity".toList else "Infinity".toList
  | F64.fin neg m e =>
    if intMag m e = 0 then "0".toList
    else if neg then '-' :: magToString m e else magToString m e

/-- Whether the magnitude `m * 2^e` is at least `10^21`. -/
def magAtLeast1e21 (m : Nat) (e : Int) : Bool :=
  if 0 ≤ e then decide (10 ^ 21 ≤ m * 2 ^ e.toNat) else decide (10 ^ 21 * 2 ^ (-e).toNat ≤ m)

/-- The integer `n` for which `n / 100` is nearest to `m * 2^e`, the larger one
on a tie. -/
def roundHundredths (m : Nat) (e : Int) : Nat :=
  if 0 ≤ e then m * 100 * 2 ^ e.toNat
  else (2 * (m * 100) + 2 ^ (-e).toNat) / (2 * 2 ^ (-e).toNat)

/-- Digits of `toFixed(2)` for the integer `n` of hundredths: at least three
digits, a point before the last two. -/
def fixedDigits (n : Nat) : Str :=
  let ds := natDigits n
  let padded := List.replicate (3 - ds.length) '0' ++ ds
  padded.take (padded.length - 2) ++ '.' :: padded.drop (padded.length - 2)

/-- The call `number.toFixed(2)`. -/
def F64.toFixed2 : F64 → Str
  | F64.nan => "NaN".toList
  | F64.inf neg => if neg then "-Infinity".toList else "Infinity".toList
  | F64.fin neg m e =>
    let sign : Str := if neg && decide (m ≠ 0) then ['-'] else []
    if magAtLeast1e21 m e then sign ++ magToString m e
    else sign ++ fixedDigits (roundHundredths m e)

/-- Whether the whole of `s` matches `\.?0+$`: an optional point, then one or
more zeros up to the end of the string. -/
def dotZerosToEnd (s : Str) : Bool :=
  match s with
  | [] => false
  | c :: t =>
    if c = '.' then (!t.isEmpty && t.all (fun x => x == '0'))
    else (c :: t).all (fun x => x == '0')

/-- The call `.replace(/\.?0+$/, '')`: the leftmost suffix matching the pattern is
removed. -/
def stripTrailingZeros : Str → Str
  | [] => []
  | c :: t => if dotZerosToEnd (c :: t) then [] else c :: stripTrailingZeros t

/-- The literal `'ERROR'`. -/
def ERROR : Str := "ERROR".toList

/-- Source lines 221-226.
```
formatResult(number) {
    if (typeof number !== 'number') return 'ERROR';
    return Number.isInteger(number) ?
        number.toString() :
        number.toFixed(2).replace(/\.?0+$/, '');
}
``` -/
def formatResult : JSVal → Str
  | JSVal.undefined => ERROR
  | JSVal.number x =>
    if x.isInteger then x.toStr else stripTrailingZeros x.toFixed2

/-! ## The bracket scanner: `MATH_PATTERN = /=\(((?:[^()]|\([^()]*\))*)\)/g` -/

/-- The character class `[^()]`. -/
def notParen (c : Char) : Bool := c != '(' && c != ')'

/-- The piece `\([^()]*\)` at the head of `s`: an opening parenthesis, the longest
run of non-parenthesis characters, a closing parenthesis.  Returns the text
matched and the rest.  (The character after a shorter run is not a
parenthesis, so giving characters back cannot make `\)` match.) -/
def parenGroup (s : Str) : Option (Str × Str) :=
  match s with
  | [] => none
  | c :: t =>
    if c = '(' then
      match (t.span notParen).2 with
      | [] => none
      | d :: rest => if d = ')' then some (c :: ((t.span notParen).1 ++ [d]), rest) else none
    else none

/-- One iteration of `(?:[^()]|\([^()]*\))` at the head of `s`: the text matched
and the rest.  The two alternatives start with different characters. -/
def atom (s : Str) : Option (Str × Str) :=
  match s with
  | [] => none
  | c :: t => if notParen c then some ([c], t) else parenGroup (c :: t)

/-- The piece `\)` at the head of `s`, with an empty capture before it. -/
def closeParen (s : Str) : Option (Str × Str) :=
  match s with
  | [] => none
  | c :: t => if c = ')' then some ([], t) else none

/-- The piece `((?:[^()]|\([^()]*\))*)\)` at the head of `s`: the star takes
iterations greedily and gives them back when what follows does not match.
Returns the capture and the text after the closing parenthesis; `fuel` bounds
the number of iterations. -/
def bodyThenClose : Nat → Str → Option (Str × Str)
  | 0, _ => none
  | fuel + 1, s =>
    match atom s with
    | none => closeParen s
    | some (a, r) =>
      match bodyThenClose fuel r with
      | some (p, rest) => some (a ++ p, rest)
      | none => closeParen s

/-- A match of `MATH_PATTERN` anchored at the head of `s`: the capture `match[1]`
and the text after the match. -/
def execAt (s : Str) : Option (Str × Str) :=
  match s with
  | c :: d :: t => if c = '=' ∧ d = '(' then bodyThenClose (t.length + 1) t else none
  | _ => none

/-- A match object: `index`, the whole match `match[0]` and the capture `match[1]`. -/
structure Match where
  index : Nat
  full : Str
  expr : Str
  deriving DecidableEq

/-- The offset just after the match: `start + fullMatch.length`. -/
def Match.stop (m : Match) : Nat := m.index + m.full.length

/-- The matches of `MATH_PATTERN` in `s`, where `s` starts at offset `i` of the
buffer: the search tries each offset in turn and resumes after a match. -/
def matchAllFrom : Nat → Nat → Str → List Match
  | 0, _, _ => []
  | fuel + 1, i, s =>
    match execAt s with
    | some (p, rest) =>
      { index := i, full := '=' :: '(' :: (p ++ [')']), expr := p }
        :: matchAllFrom fuel (i + (p.length + 3)) rest
    | none =>
      match s with
      | [] => []
      | _ :: t => matchAllFrom fuel (i + 1) t

/-- The call `[...s.matchAll(MATH_PATTERN)]`, in ascending order of `index`. -/
def matchAll (s : Str) : List Match := matchAllFrom (s.length + 1) 0 s

/-- The call `s.replace(MATH_PATTERN, (_, inner) => f(inner))` on the text `s`:
every match is replaced by `f` of its capture, the text between matches is
kept. -/
def replaceFrom (f : Str → Str) : Nat → Str → Str
  | 0, s => s
  | fuel + 1, s =>
    match execAt s with
    | some (p, rest) => f p ++ replaceFrom f fuel rest
    | none =>
      match s with
      | [] => []
      | c :: t => c :: replaceFrom f fuel t

/-- The call `s.replace(MATH_PATTERN, (_, inner) => f(inner))`. -/
def replaceAll (f : Str → Str) (s : Str) : Str := replaceFrom f (s.length + 1) s

/-! ## Sanitizer -/

/-- The class `\d`. -/
def isDigit (c : Char) : Bool := decide ('0' ≤ c) && decide (c ≤ '9')

/-- The class `[+\-*/]`. -/
def isOp (c : Char) : Bool := c == '+' || c == '-' || c == '*' || c == '/'

/-- The complement of the class `[^\d%\/*+\-().]`: the characters that are kept. -/
def isAllowed (c : Char) : Bool :=
  isDigit c || c == '%' || c == '/' || c == '*' || c == '+' || c == '-' ||
  c == '(' || c == ')' || c == '.'

/-- The call `.replace(/(\d)%/g, '$1/100')`. -/
def percentToDivision : Str → Str
  | [] => []
  | c :: t =>
    match t with
    | [] => [c]
    | d :: rest =>
      if isDigit c ∧ d = '%' then c :: '/' :: '1' :: '0' :: '0' :: percentToDivision rest
      else c :: percentToDivision (d :: rest)

/-- The call `.replace(/([+\-*/])(?=[+\-*/])/g, '')`: an operator character that is
followed by an operator character is removed. -/
def collapseOperators : Str → Str
  | [] => []
  | c :: t =>
    match t with
    | [] => [c]
    | d :: rest =>
      if isOp c ∧ isOp d then collapseOperators (d :: rest)
      else c :: collapseOperators (d :: rest)

/-- Source lines 142-147.
```
sanitizeInput(expr) {
    return expr
        .replace(/[^\d%\/*+\-().]/g, '')
        .replace(/(\d)%/g, '$1/100')
        .replace(/([+\-*/])(?=[+\-*/])/g, '');
}
``` -/
def sanitizeInput (expr : Str) : Str :=
  collapseOperators (percentToDivision (expr.filter isAllowed))

/-! ## Tokenizer -/

/-- A token: `{ type: 'number', value }` or `{ type: 'operator', value }`. -/
inductive Token where
  | number (value : F64) : Token
  | operator (value : Char) : Token
  deriving DecidableEq

/-- The class `[+\-*/%^()]`. -/
def isOperatorChar (c : Char) : Bool :=
  c == '+' || c == '-' || c == '*' || c == '/' || c == '%' || c == '^' || c == '(' || c == ')'

/-- The alternative `(\d+\.?\d*|\.\d+)` at the head of `s`: the integer digits,
the fraction digits and the rest.  Every quantifier is greedy and nothing has
to follow, so the first attempt stands. -/
def matchNumber (s : Str) : Option (Str × Str × Str) :=
  let ip := (s.span isDigit).1
  let r := (s.span isDigit).2
  if ip ≠ [] then
    match r with
    | [] => some (ip, [], r)
    | c :: r1 =>
      if c = '.' then some (ip, (r1.span isDigit).1, (r1.span isDigit).2) else some (ip, [], r)
  else
    match s with
    | [] => none
    | c :: r1 =>
      if c = '.' ∧ (r1.span isDigit).1 ≠ [] then
        some ([], (r1.span isDigit).1, (r1.span isDigit).2)
      else none

/-- The `exec` loop of `tokenize`: at each offset a number, else an operator
character, else the search moves on by one character. -/
def tokenizeFrom : Nat → Str → List Token
  | 0, _ => []
  | _ + 1, [] => []
  | fuel + 1, c :: t =>
    match matchNumber (c :: t) with
    | some (ip, fp, rest) => Token.number (parseFloat ip fp) :: tokenizeFrom fuel rest
    | none =>
      if isOperatorChar c then Token.operator c :: tokenizeFrom fuel t
      else tokenizeFrom fuel t

/-- Source lines 160-173, `tokenize(expr)`. -/
def tokenize (expr : Str) : List Token := tokenizeFrom expr.length expr

/-! ## Infix to postfix -/

/-- The table `precedence = { '+': 1, '-': 1, '*': 2, '/': 2, '%': 2 }`; any other
key is `undefined`. -/
def precedence (c : Char) : Option Nat :=
  if c = '+' then some 1
  else if c = '-' then some 1
  else if c = '*' then some 2
  else if c = '/' then some 2
  else if c = '%' then some 2
  else none

/-- The property `token.value` used as a key of `precedence`; a number is no key
of the table. -/
def Token.prec : Token → Option Nat
  | Token.number _ => none
  | Token.operator c => precedence c

/-- The test `precedence[top.value] >= precedence[token.value]`: false when either
side is `undefined`. -/
def precGE (top tok : Token) : Bool :=
  match top.prec, tok.prec with
  | some a, some b => decide (b ≤ a)
  | _, _ => false

/-- The loop `while (stack.length && stack[top].value !== '(') output.push(stack.pop())`. -/
def popToParen : List Token → List Token → List Token × List Token
  | output, [] => (output, [])
  | output, t :: stack =>
    if t = Token.operator '(' then (output, t :: stack)
    else popToParen (output ++ [t]) stack

/-- The loop `while (stack.length && precedence[top] >= precedence[token]) output.push(stack.pop())`. -/
def popWhileGE (tok : Token) : List Token → List Token → List Token × List Token
  | output, [] => (output, [])
  | output, t :: stack =>
    if precGE t tok then popWhileGE tok (output ++ [t]) stack
    else (output, t :: stack)

/-- The body of `tokens.forEach` in `infixToPostfix`, on the pair `(output, stack)`. -/
def shunt (st : List Token × List Token) (token : Token) : List Token × List Token :=
  match token with
  | Token.number _ => (st.1 ++ [token], st.2)
  | Token.operator c =>
    if c = '(' then (st.1, token :: st.2)
    else if c = ')' then
      ((popToParen st.1 st.2).1, (popToParen st.1 st.2).2.tail)
    else
      ((popWhileGE token st.1 st.2).1, token :: (popWhileGE token st.1 st.2).2)

/-- Source lines 175-199, `infixToPostfix(tokens)`; the result is
`output.concat(stack.reverse())`, the stack from its top down. -/
def infixToPostfix (tokens : List Token) : List Token :=
  (tokens.foldl shunt ([], [])).1 ++ (tokens.foldl shunt ([], [])).2

/-! ## Postfix evaluation -/

/-- The conversion of an operand to a Number: `undefined` becomes NaN. -/
def toNumber : Option F64 → F64
  | some x => x
  | none => F64.nan

/-- The body of `postfix.forEach` in `evaluatePostfix`: a number is pushed; any
other token pops `b`, then `a` (`undefined` from an empty stack), and the
`switch` pushes `a op b` for the five operators and nothing otherwise. -/
def evalStep (stack : List F64) (token : Token) : List F64 :=
  match token with
  | Token.number v => v :: stack
  | Token.operator c =>
    let b := toNumber stack.head?
    let a := toNumber stack.tail.head?
    let rest := stack.tail.tail
    if c = '+' then F64.add a b :: rest
    else if c = '-' then F64.sub a b :: rest
    else if c = '*' then F64.mul a b :: rest
    else if c = '/' then F64.div a b :: rest
    else if c = '%' then F64.rem a b :: rest
    else rest

/-- The operand stack after the `forEach` of `evaluatePostfix`. -/
def evalStack (pf : List Token) : List F64 := pf.foldl evalStep []

/-- Source lines 201-219, `evaluatePostfix(postfix)`: `stack[0]`, the bottom of
the stack, `undefined` when the stack is empty. -/
def evaluatePostfix (pf : List Token) : JSVal :=
  match (evalStack pf).getLast? with
  | some x => JSVal.number x
  | none => JSVal.undefined

/-- Source lines 149-158, `safeEval(expr)`; no step of it throws, so the `catch`
is not entered. -/
def safeEval (expr : Str) : Str :=
  formatResult (evaluatePostfix ( infixToPostfix (tokenize expr)))

/-! ## Expression resolver -/

/-- The recursion `evaluateExpression -> resolveNested -> evaluateExpression`
with a bound on its depth; at depth 0 the call fails and the `catch` of
`evaluateExpression` returns `'ERROR'`. -/
def evaluateExpressionDepth : Nat → Str → Str
  | 0, _ => ERROR
  | depth + 1, expr =>
    safeEval (sanitizeInput (replaceAll (evaluateExpressionDepth depth) expr))

/-- Source lines 126-134, `evaluateExpression(expr)`.  Every nested capture is
shorter than the text it was found in, so a depth of `expr.length + 1` is never
used up. -/
def evaluateExpression (expr : Str) : Str := evaluateExpressionDepth (expr.length + 1) expr

/-- Source lines 136-140, `resolveNested(expr)`. -/
def resolveNested (expr : Str) : Str := replaceAll evaluateExpression expr

/-! ## Text patcher and cursor remapper -/

/-- The state of the loop of `processElement`. -/
structure PatchState where
  newValue : Str
  newCursorPos : Int
  newSelectionEnd : Int
  deriving DecidableEq

/-- The two `if` chains of the loop body (source lines 80-90) for one offset. -/
def adjust (pos : Int) (start stop : Nat) (replacement : Str) (fullLength : Nat) : Int :=
  if (stop : Int) < pos then pos + ((replacement.length : Int) - (fullLength : Int))
  else if (start : Int) ≤ pos then (start : Int) + (replacement.length : Int)
  else pos

/-- The body of the loop `for (const match of matches)` (source lines 69-91). -/
def patchStep (st : PatchState) (m : Match) : PatchState :=
  let replacement := evaluateExpression m.expr
  { newValue := st.newValue.take m.index ++ replacement ++ st.newValue.drop m.stop
    newCursorPos := adjust st.newCursorPos m.index m.stop replacement m.full.length
    newSelectionEnd := adjust st.newSelectionEnd m.index m.stop replacement m.full.length }

/-- Source lines 63-91: the matches, reversed, are applied to the buffer and the
two selection offsets. -/
def patchLoop (originalValue : Str) (selectionStart selectionEnd : Int) : PatchState :=
  (matchAll originalValue).reverse.foldl patchStep
    { newValue := originalValue, newCursorPos := selectionStart, newSelectionEnd := selectionEnd }

/-- Source lines 93-100: the arguments of the `updateElement` call, or `none` when
the text did not change and nothing is written back. -/
def processElement (originalValue : Str) (selectionStart selectionEnd : Int) :
    Option (Str × Int × Int) :=
  let st := patchLoop originalValue selectionStart selectionEnd
  if st.newValue ≠ originalValue then
    some (st.newValue, max 0 st.newCursorPos, max 0 st.newSelectionEnd)
  else none

/-! ## Reference reading of an infix expression

The grammar `E ::= E (+|-) T | T`, `T ::= T (*|/|%) F | F`, `F ::= number | ( E )`
as a syntax tree with the side condition `Expr.wf`: the left operand of an
operator binds at least as tightly as the operator, the right operand strictly
tighter. -/

/-- A syntax tree of an infix expression. -/
inductive Expr where
  | num (v : F64) : Expr
  | paren (e : Expr) : Expr
  | bin (op : Char) (l r : Expr) : Expr

/-- Whether `op` is one of the five binary operators `+ - * / %` the claim speaks
of. -/
def isBinaryOperator (op : Char) : Bool :=
  op == '+' || op == '-' || op == '*' || op == '/' || op == '%'

/-- Binding strength of a binary operator as the claim fixes it: 2 for `* / %`,
which bind tighter, and 1 for `+ -`.  It is stated here on its own and does not
read the table `precedence` of the source. -/
def bindingStrength (op : Char) : Nat :=
  if op = '*' ∨ op = '/' ∨ op = '%' then 2 else 1

/-- Binding strength of the outermost construct: 1 for `+ -`, 2 for `* / %`,
3 for a number or a parenthesised expression. -/
def Expr.level : Expr → Nat
  | Expr.num _ => 3
  | Expr.paren _ => 3
  | Expr.bin op _ _ => bindingStrength op

/-- The tree is a derivation of the grammar: operators are among `+ - * / %`,
`* / %` bind tighter than `+ -`, and equal precedence associates to the left
(the left operand binds at least as tightly as the operator, the right operand
strictly tighter). -/
def Expr.wf : Expr → Bool
  | Expr.num _ => true
  | Expr.paren e => e.wf
  | Expr.bin op l r =>
    isBinaryOperator op && l.wf && r.wf &&
      decide (bindingStrength op ≤ l.level) && decide (bindingStrength op < r.level)

/-- The infix token sequence the tree is the reading of. -/
def Expr.tokens : Expr → List Token
  | Expr.num v => [Token.number v]
  | Expr.paren e => Token.operator '(' :: (e.tokens ++ [Token.operator ')'])
  | Expr.bin op l r => l.tokens ++ Token.operator op :: r.tokens

/-- The operation `a op b`, `a` the left operand. -/
def applyOp (op : Char) (a b : F64) : F64 :=
  if op = '+' then F64.add a b
  else if op = '-' then F64.sub a b
  else if op = '*' then F64.mul a b
  else if op = '/' then F64.div a b
  else F64.rem a b

/-- The value of the tree. -/
def Expr.value : Expr → F64
  | Expr.num v => v
  | Expr.paren e => e.value
  | Expr.bin op l r => applyOp op l.value r.value

/-- Whether every operator of the postfix sequence `pf`, run from the operand
stack `stack`, finds at least two operands. -/
def operandsOk : List F64 → List Token → Bool
  | _, [] => true
  | stack, t :: rest =>
    (match t with
      | Token.number _ => true
      | Token.operator _ => decide (2 ≤ stack.length)) && operandsOk (evalStep stack t) rest

/-! ## Quantities the proofs speak of -/

/-- Operators of the tree still on the converter's stack after its last token
(top first). -/
def Expr.pending : Expr → List Token
  | Expr.num _ => []
  | Expr.paren _ => []
  | Expr.bin op _ r => r.pending ++ [Token.operator op]

/-- Tokens the converter has sent to the output after the last token of the tree. -/
def Expr.emitted : Expr → List Token
  | Expr.num v => [Token.number v]
  | Expr.paren e => e.emitted ++ e.pending
  | Expr.bin _ l r => l.emitted ++ l.pending ++ r.emitted

/-- The top of the stack is no operator of precedence `lvl` or more. -/
def TopBelow (lvl : Nat) (stack : List Token) : Prop :=
  ∀ t rest, stack = t :: rest → ∀ p, t.prec = some p → p < lvl

/-- The reading of `2+3*4`. -/
def sumOfProduct : Expr :=
  Expr.bin '+' (Expr.num (parseFloat ['2'] []))
    (Expr.bin '*' (Expr.num (parseFloat ['3'] [])) (Expr.num (parseFloat ['4'] [])))

/-- The reading of `(2+3)*4`. -/
def productOfSum : Expr :=
  Expr.bin '*'
    (Expr.paren (Expr.bin '+' (Expr.num (parseFloat ['2'] [])) (Expr.num (parseFloat ['3'] []))))
    (Expr.num (parseFloat ['4'] []))

/-- The reading of `1-2-3`, which is `(1-2)-3`. -/
def differenceChain : Expr :=
  Expr.bin '-'
    (Expr.bin '-' (Expr.num (parseFloat ['1'] [])) (Expr.num (parseFloat ['2'] [])))
    (Expr.num (parseFloat ['3'] []))

/-- The reading of `8/4/2`, which is `(8/4)/2`. -/
def quotientChain : Expr :=
  Expr.bin '/'
    (Expr.bin '/' (Expr.num (parseFloat ['8'] [])) (Expr.num (parseFloat ['4'] [])))
    (Expr.num (parseFloat ['2'] []))

/-- The reading of `9-7%4*2`, which is `9-((7%4)*2)`. -/
def differenceOfRemainder : Expr :=
  Expr.bin '-' (Expr.num (parseFloat ['9'] []))
    (Expr.bin '*'
      (Expr.bin '%' (Expr.num (parseFloat ['7'] [])) (Expr.num (parseFloat ['4'] [])))
      (Expr.num (parseFloat ['2'] [])))

/-- The matches `ms` lie in a buffer of length `len`, at or after offset `lo`, in
ascending order and without overlap. -/
def Placed (len : Nat) : Nat → List Match → Prop
  | _, [] => True
  | lo, m :: ms => lo ≤ m.index ∧ m.stop ≤ len ∧ Placed len m.stop ms

/-- The replacement text of a match, `this.evaluateExpression(expr)`. -/
def Match.replacement (m : Match) : Str := evaluateExpression m.expr

/-- The change of length a match causes, `replacement.length - fullMatch.length`. -/
def Match.delta (m : Match) : Int := (m.replacement.length : Int) - (m.full.length : Int)

/-- The buffer from offset `pos` on, rebuilt left to right: the text up to the
next match, the replacement of that match, and so on; the text after the last
match at the end. -/
def rebuild (buffer : Str) : Nat → List Match → Str
  | pos, [] => buffer.drop pos
  | pos, m :: ms =>
    (buffer.take m.index).drop pos ++ (m.replacement ++ rebuild buffer m.stop ms)

/-- The loop of `processElement` over the matches `ms`, last match first. -/
def patchAll (init : PatchState) (ms : List Match) : PatchState :=
  ms.foldr (fun m st => patchStep st m) init

/-- One selection offset after the loop over `ms`, last match first. -/
def remap (ms : List Match) (pos : Int) : Int :=
  ms.foldr (fun m p => adjust p m.index m.stop m.replacement m.full.length) pos

/-- A character a replacement text may hold next to a bracket pattern: none of
`=`, `(`, `)`. -/
def plainChar (c : Char) : Bool := c != '=' && c != '(' && c != ')'

/-- The text read so far is a capture of `MATH_PATTERN` up to here, `inGroup`
telling whether a parenthesis is open: parentheses balance and do not nest. -/
def payloadTail : Bool → Str → Bool
  | inGroup, [] => !inGroup
  | false, c :: t =>
    if c = '(' then payloadTail true t else if c = ')' then false else payloadTail false t
  | true, c :: t =>
    if c = ')' then payloadTail false t else if c = '(' then false else payloadTail true t

/-- A payload: a text whose parentheses balance with nesting depth at most one,
the language of the capture `((?:[^()]|\([^()]*\))*)`. -/
def isPayload (s : Str) : Bool := payloadTail false s

/-- Whether the text holds `=` directly followed by `(`. -/
def hasEqParen : Str → Bool
  | [] => false
  | c :: t =>
    match t with
    | [] => false
    | d :: _ => (c == '=' && d == '(') || hasEqParen t

/-- A text that `.replace(/\.?0+$/, '')` cannot empty: it starts with a character
other than the point and holds a character other than `0`. -/
def Solid (s : Str) : Prop :=
  ∃ c t, s = c :: t ∧ c ≠ '.' ∧ ∃ y ∈ c :: t, y ≠ '0'

/-- The call `s.replace(MATH_PATTERN, (_, inner) => f(inner))` for a callback that
may fail to return (`none`): the call returns only if every call of `f` does. -/
def replaceFromOpt (f : Str → Option Str) : Nat → Str → Option Str
  | 0, s => some s
  | fuel + 1, s =>
    match execAt s with
    | some (p, rest) =>
      match f p, replaceFromOpt f fuel rest with
      | some r, some t => some (r ++ t)
      | _, _ => none
    | none =>
      match s with
      | [] => some []
      | c :: t => (replaceFromOpt f fuel t).map (fun r => c :: r)

/-- The recursion `evaluateExpression -> resolveNested -> evaluateExpression`
run with at most `depth` nested calls: `none` when a call would need more, the
returned text otherwise. -/
def evaluateWithin : Nat → Str → Option Str
  | 0, _ => none
  | depth + 1, expr =>
    (replaceFromOpt (evaluateWithin depth) (expr.length + 1) expr).map
      (fun resolved => safeEval (sanitizeInput resolved))

/-- Whether the text holds two adjacent characters of the class `[+\-*/]`. -/
def hasAdjacentOps : Str → Bool
  | [] => false
  | c :: t =>
    match t with
    | [] => false
    | d :: _ => (isOp c && isOp d) || hasAdjacentOps t

/-- The text `s` with every `%` that directly follows a digit replaced by `/100` and
every other character kept; `prev` is the character before `s`. -/
def percentAfterDigit (prev : Option Char) : Str → Str
  | [] => []
  | c :: t =>
    if c = '%' ∧ (prev.map isDigit).getD false = true then
      '/' :: '1' :: '0' :: '0' :: percentAfterDigit (some c) t
    else c :: percentAfterDigit (some c) t

/-- The token `(`. -/
def Token.isOpen (t : Token) : Bool := decide (t = Token.operator '(')

/-- The token `)`. -/
def Token.isClose (t : Token) : Bool := decide (t = Token.operator ')')

/-- A parenthesis token. -/
def Token.isParen (t : Token) : Bool := t.isOpen || t.isClose

/-- A token of type `number`. -/
def Token.isNumber : Token → Bool
  | Token.number _ => true
  | Token.operator _ => false

/-- Whether the parentheses of a token sequence balance, `depth` of them being
open before it: no prefix closes more than is open, and none stays open. -/
def balancedFrom : Nat → List Token → Bool
  | depth, [] => decide (depth = 0)
  | depth, t :: rest =>
    if t = Token.operator '(' then balancedFrom (depth + 1) rest
    else if t = Token.operator ')' then decide (depth ≠ 0) && balancedFrom (depth - 1) rest
    else balancedFrom depth rest

/-- Whether the `(` and `)` tokens of a sequence are balanced. -/
def balanced (tokens : List Token) : Bool := balancedFrom 0 tokens

/-- A state of the converter in which the output holds no parenthesis and the stack
holds neither `)` nor a number. -/
def CleanState (st : List Token × List Token) : Prop :=
  (∀ t ∈ st.1, t.isParen = false) ∧ (∀ t ∈ st.2, t.isClose = false ∧ t.isNumber = false)

/-- Number of `(` tokens on the stack. -/
def opens (stack : List Token) : Nat := stack.count (Token.operator '(')

/-- The stack without its `(` tokens. -/
def kept (stack : List Token) : List Token := stack.filter (fun t => !t.isOpen)

/-! ## The depth-counter scan of the specification (section 4.1)

Written from the words of the specification, to be compared with the scanner of
the source: after `=(` a counter of open parentheses starts at 1, `(` increments
it, `)` decrements it, and the match ends at the `)` that brings it to 0.  The
parameter `maxDepth` is an optional ceiling of the counter: `none` is the scan
as the specification words it, `some 2` refuses a parenthesis inside a
parenthesised group. -/

/-- The forward scan with counter `depth`: the payload and the text after the
closing parenthesis, or `none` when the text ends first or the ceiling is
exceeded. -/
def depthScanClose (maxDepth : Option Nat) : Nat → Str → Option (Str × Str)
  | _, [] => none
  | depth, c :: t =>
    if c = '(' then
      (if (maxDepth.map (fun k => decide (k < depth + 1))).getD false = true then none
       else (depthScanClose maxDepth (depth + 1) t).map (fun r => (c :: r.1, r.2)))
    else if c = ')' then
      (if depth = 1 then some ([], t)
       else (depthScanClose maxDepth (depth - 1) t).map (fun r => (c :: r.1, r.2)))
    else (depthScanClose maxDepth depth t).map (fun r => (c :: r.1, r.2))

/-- The depth-counter scan at an occurrence of `=(` at the head of `s`. -/
def depthScanAt (maxDepth : Option Nat) (s : Str) : Option (Str × Str) :=
  match s with
  | c :: d :: t => if c = '=' ∧ d = '(' then depthScanClose maxDepth 1 t else none
  | _ => none

/-- The matches of the depth-counter scan in `s`, which starts at offset `i`:
scanning resumes just after a match, and at the next character otherwise. -/
def depthScanFrom (maxDepth : Option Nat) : Nat → Nat → Str → List Match
  | 0, _, _ => []
  | fuel + 1, i, s =>
    match depthScanAt maxDepth s with
    | some (p, rest) =>
      { index := i, full := '=' :: '(' :: (p ++ [')']), expr := p }
        :: depthScanFrom maxDepth fuel (i + (p.length + 3)) rest
    | none =>
      match s with
      | [] => []
      | _ :: t => depthScanFrom maxDepth fuel (i + 1) t

/-- The matches of the depth-counter scan in a buffer. -/
def depthScan (maxDepth : Option Nat) (s : Str) : List Match :=
  depthScanFrom maxDepth (s.length + 1) 0 s

/-! # Theorems -/

/-! ## Infix to postfix and evaluation (C1) -/

theorem prec_operator (c : Char) : (Token.operator c).prec = precedence c := rfl

theorem popWhileGE_append (tok : Token) (pend stack output : List Token)
    (hp : ∀ t ∈ pend, precGE t tok = true)
    (hs : ∀ t rest, stack = t :: rest → precGE t tok = false) :
    popWhileGE tok output (pend ++ stack) = (output ++ pend, stack) := by
  induction pend generalizing output with
  | nil =>
    cases stack with
    | nil => simp [popWhileGE]
    | cons t rest => simp [popWhileGE, hs t rest rfl]
  | cons t pend ih =>
    have h1 : precGE t tok = true := hp t (List.mem_cons_self _ _)
    have h2 : ∀ u ∈ pend, precGE u tok = true := fun u hu => hp u (List.mem_cons_of_mem _ hu)
    simp [popWhileGE, h1, ih _ h2]

theorem popToParen_append (pend stack output : List Token)
    (hp : ∀ t ∈ pend, t ≠ Token.operator '(') :
    popToParen output (pend ++ Token.operator '(' :: stack)
      = (output ++ pend, Token.operator '(' :: stack) := by
  induction pend generalizing output with
  | nil => simp [popToParen]
  | cons t pend ih =>
    have h1 : t ≠ Token.operator '(' := hp t (List.mem_cons_self _ _)
    have h2 : ∀ u ∈ pend, u ≠ Token.operator '(' := fun u hu => hp u (List.mem_cons_of_mem _ hu)
    simp [popToParen, h1, ih _ h2]

theorem precedence_some_cases {c : Char} {p : Nat} (h : precedence c = some p) :
    (c = '+' ∨ c = '-' ∨ c = '*' ∨ c = '/' ∨ c = '%') ∧ (p = 1 ∨ p = 2) := by
  unfold precedence at h
  split_ifs at h with h1 h2 h3 h4 h5 <;> simp at h <;> subst h <;> simp_all

theorem binary_precedence {op : Char} (h : isBinaryOperator op = true) :
    precedence op = some (bindingStrength op) := by
  simp only [isBinaryOperator, Bool.or_eq_true, beq_iff_eq] at h
  rcases h with (((h | h) | h) | h) | h <;> subst h <;> decide

theorem wf_bin {op : Char} {l r : Expr} (h : (Expr.bin op l r).wf = true) :
    ∃ p, precedence op = some p ∧ l.wf = true ∧ r.wf = true ∧ p ≤ l.level ∧ p < r.level := by
  rw [Expr.wf] at h
  simp only [Bool.and_eq_true, decide_eq_true_eq] at h
  obtain ⟨⟨⟨⟨hop, hl⟩, hr⟩, hle⟩, hlt⟩ := h
  exact ⟨bindingStrength op, binary_precedence hop, hl, hr, hle, hlt⟩

theorem level_bin {op : Char} {p : Nat} (l r : Expr) (hp : precedence op = some p) :
    (Expr.bin op l r).level = p := by
  have hc := (precedence_some_cases hp).1
  have hb : isBinaryOperator op = true := by
    rcases hc with h | h | h | h | h <;> subst h <;> decide
  have := binary_precedence hb
  rw [hp] at this
  rw [Expr.level]
  exact (Option.some.inj this).symm

theorem pending_prec (e : Expr) (hwf : e.wf = true) :
    ∀ t ∈ e.pending, ∃ p, t.prec = some p ∧ e.level ≤ p := by
  induction e with
  | num v => simp [Expr.pending]
  | paren e _ => simp [Expr.pending]
  | bin op l r _ ihr =>
    obtain ⟨p, hp, _, hr, _, hlt⟩ := wf_bin hwf
    have hlev := level_bin l r hp
    intro t ht
    simp only [Expr.pending, List.mem_append, List.mem_singleton] at ht
    rw [hlev]
    rcases ht with ht | ht
    · obtain ⟨q, hq, hle⟩ := ihr hr t ht
      exact ⟨q, hq, by omega⟩
    · subst ht
      exact ⟨p, by simp [Token.prec, hp], le_refl _⟩

theorem shunt_tokens (e : Expr) (hwf : e.wf = true) :
    ∀ output stack, TopBelow e.level stack →
      e.tokens.foldl shunt (output, stack) = (output ++ e.emitted, e.pending ++ stack) := by
  induction e with
  | num v =>
    intro output stack _
    simp [Expr.tokens, Expr.emitted, Expr.pending, shunt]
  | paren e ih =>
    intro output stack _
    have hwf1 : e.wf = true := by simpa [Expr.wf] using hwf
    have htop : TopBelow e.level (Token.operator '(' :: stack) := by
      intro t rest h p hp
      simp only [List.cons.injEq] at h
      rw [← h.1] at hp
      simp [Token.prec, precedence] at hp
    have hne : ∀ t ∈ e.pending, t ≠ Token.operator '(' := by
      intro t ht heq
      obtain ⟨p, hp, _⟩ := pending_prec e hwf1 t ht
      rw [heq] at hp
      simp [Token.prec, precedence] at hp
    simp only [Expr.tokens, List.foldl_cons, List.foldl_append, List.foldl_nil]
    have h1 : shunt (output, stack) (Token.operator '(') = (output, Token.operator '(' :: stack) := by
      simp [shunt]
    rw [h1, ih hwf1 _ _ htop]
    simp [shunt, popToParen_append _ _ _ hne, Expr.emitted, Expr.pending]
  | bin op l r ihl ihr =>
    intro output stack htop
    obtain ⟨p, hp, hl, hr, hle, hlt⟩ := wf_bin hwf
    rw [level_bin l r hp] at htop
    have htopl : TopBelow l.level stack := by
      intro t rest h q hq
      have := htop t rest h q hq
      omega
    have hc := (precedence_some_cases hp).1
    have hno : op ≠ '(' ∧ op ≠ ')' := by
      rcases hc with h | h | h | h | h <;> subst h <;> decide
    have hpend : ∀ t ∈ l.pending, precGE t (Token.operator op) = true := by
      intro t ht
      obtain ⟨q, hq, hle2⟩ := pending_prec l hl t ht
      simp only [precGE, hq, prec_operator, hp, decide_eq_true_eq]
      omega
    have hstk : ∀ t rest, stack = t :: rest → precGE t (Token.operator op) = false := by
      intro t rest h
      cases hq : t.prec with
      | none => simp [precGE, hq]
      | some q =>
        have := htop t rest h q hq
        simp only [precGE, hq, prec_operator, hp, decide_eq_false_iff_not]
        omega
    have htopr : TopBelow r.level (Token.operator op :: stack) := by
      intro t rest h q hq
      simp only [List.cons.injEq] at h
      rw [← h.1] at hq
      simp only [prec_operator, hp, Option.some.injEq] at hq
      omega
    simp only [Expr.tokens, List.foldl_cons, List.foldl_append]
    rw [ihl hl _ _ htopl]
    have h1 : shunt (output ++ l.emitted, l.pending ++ stack) (Token.operator op)
        = (output ++ l.emitted ++ l.pending, Token.operator op :: stack) := by
      simp [shunt, hno.1, hno.2, popWhileGE_append _ _ _ _ hpend hstk]
    rw [h1, ihr hr _ _ htopr]
    simp [Expr.emitted, Expr.pending]

theorem evalStep_op (c : Char) (h : c = '+' ∨ c = '-' ∨ c = '*' ∨ c = '/' ∨ c = '%')
    (a b : F64) (vs : List F64) :
    evalStep (b :: a :: vs) (Token.operator c) = applyOp c a b :: vs := by
  rcases h with h | h | h | h | h <;> subst h <;> simp [evalStep, applyOp, toNumber]

theorem operandsOk_append (vs : List F64) (p q : List Token) :
    operandsOk vs (p ++ q) = (operandsOk vs p && operandsOk (p.foldl evalStep vs) q) := by
  induction p generalizing vs with
  | nil => simp [operandsOk]
  | cons t p ih => simp [operandsOk, ih, Bool.and_assoc]

theorem eval_emitted (e : Expr) (hwf : e.wf = true) :
    ∀ vs, (e.emitted ++ e.pending).foldl evalStep vs = e.value :: vs
      ∧ operandsOk vs (e.emitted ++ e.pending) = true := by
  induction e with
  | num v =>
    intro vs
    simp [Expr.emitted, Expr.pending, Expr.value, evalStep, operandsOk]
  | paren e ih =>
    intro vs
    have hwf1 : e.wf = true := by simpa [Expr.wf] using hwf
    simpa [Expr.emitted, Expr.pending, Expr.value] using ih hwf1 vs
  | bin op l r ihl ihr =>
    intro vs
    obtain ⟨p, hp, hl, hr, _, _⟩ := wf_bin hwf
    have hc := (precedence_some_cases hp).1
    have e1 : (Expr.bin op l r).emitted ++ (Expr.bin op l r).pending
        = (l.emitted ++ l.pending) ++ ((r.emitted ++ r.pending) ++ [Token.operator op]) := by
      simp [Expr.emitted, Expr.pending]
    rw [e1]
    obtain ⟨hl1, hl2⟩ := ihl hl vs
    obtain ⟨hr1, hr2⟩ := ihr hr (l.value :: vs)
    constructor
    · rw [List.foldl_append, hl1, List.foldl_append, hr1]
      simp [evalStep_op op hc, Expr.value]
    · rw [operandsOk_append, hl2, hl1, operandsOk_append, hr2, hr1]
      simp [operandsOk]

theorem infixToPostfix_tokens (e : Expr) (hwf : e.wf = true) :
    infixToPostfix e.tokens = e.emitted ++ e.pending := by
  have h := shunt_tokens e hwf [] [] (by intro t rest h; cases h)
  simp [infixToPostfix, h]

/-- C1: for every well-formed infix expression (a derivation `e` of the grammar
with `* / %` above `+ -`, left associativity and parentheses), the postfix
sequence `infixToPostfix` makes of its tokens gives every operator two operands,
leaves exactly one value on the operand stack, and that value, which
`evaluatePostfix` returns, is the value of the expression. -/
theorem shunting_yard_correct (e : Expr) (hwf : e.wf = true) :
    operandsOk [] ( infixToPostfix e.tokens) = true
      ∧ evalStack ( infixToPostfix e.tokens) = [e.value]
      ∧ evaluatePostfix ( infixToPostfix e.tokens) = JSVal.number e.value := by
  rw [infixToPostfix_tokens e hwf]
  obtain ⟨h1, h2⟩ := eval_emitted e hwf []
  refine ⟨h2, h1, ?_⟩
  simp [evaluatePostfix, evalStack, h1]

/-- C1, witnesses: `2+3*4` is read as `2+(3*4)` and gives 14; `(2+3)*4` gives 20;
`1-2-3` is read as `(1-2)-3` and gives -4; `8/4/2` is read as `(8/4)/2` and gives
1; `9-7%4*2` is read as `9-((7%4)*2)` and gives 3.  The trees of the other
readings, `1-(2-3)` and `(2+3)*4` without its parentheses, are no derivations of
the grammar. -/
theorem shunting_yard_correct_witness :
    (sumOfProduct.wf = true ∧ tokenize "2+3*4".toList = sumOfProduct.tokens
      ∧ formatResult (JSVal.number sumOfProduct.value) = "14".toList
      ∧ operandsOk [] ( infixToPostfix sumOfProduct.tokens) = true
      ∧ evalStack ( infixToPostfix sumOfProduct.tokens) = [sumOfProduct.value]
      ∧ evaluatePostfix ( infixToPostfix sumOfProduct.tokens)
          = JSVal.number sumOfProduct.value)
    ∧ (productOfSum.wf = true ∧ tokenize "(2+3)*4".toList = productOfSum.tokens
      ∧ formatResult (JSVal.number productOfSum.value) = "20".toList
      ∧ operandsOk [] ( infixToPostfix productOfSum.tokens) = true
      ∧ evalStack ( infixToPostfix productOfSum.tokens) = [productOfSum.value]
      ∧ evaluatePostfix ( infixToPostfix productOfSum.tokens)
          = JSVal.number productOfSum.value)
    ∧ (differenceChain.wf = true ∧ tokenize "1-2-3".toList = differenceChain.tokens
      ∧ formatResult (JSVal.number differenceChain.value) = "-4".toList
      ∧ evaluatePostfix ( infixToPostfix differenceChain.tokens)
          = JSVal.number differenceChain.value)
    ∧ (quotientChain.wf = true ∧ tokenize "8/4/2".toList = quotientChain.tokens
      ∧ formatResult (JSVal.number quotientChain.value) = "1".toList
      ∧ evaluatePostfix ( infixToPostfix quotientChain.tokens)
          = JSVal.number quotientChain.value)
    ∧ (differenceOfRemainder.wf = true
      ∧ tokenize "9-7%4*2".toList = differenceOfRemainder.tokens
      ∧ formatResult (JSVal.number differenceOfRemainder.value) = "3".toList
      ∧ evaluatePostfix ( infixToPostfix differenceOfRemainder.tokens)
          = JSVal.number differenceOfRemainder.value)
    ∧ (Expr.bin '-' (Expr.num (parseFloat ['1'] []))
          (Expr.bin '-' (Expr.num (parseFloat ['2'] [])) (Expr.num (parseFloat ['3'] [])))).wf
        = false
    ∧ (Expr.bin '*'
          (Expr.bin '+' (Expr.num (parseFloat ['2'] [])) (Expr.num (parseFloat ['3'] [])))
          (Expr.num (parseFloat ['4'] []))).wf = false
    ∧ (bindingStrength '+' = 1 ∧ bindingStrength '-' = 1 ∧ bindingStrength '*' = 2
      ∧ bindingStrength '/' = 2 ∧ bindingStrength '%' = 2) :=
  ⟨⟨by decide, by decide, by decide!, shunting_yard_correct sumOfProduct (by decide)⟩,
    ⟨by decide, by decide, by decide!, shunting_yard_correct productOfSum (by decide)⟩,
    ⟨by decide, by decide, by decide!,
      (shunting_yard_correct differenceChain (by decide)).2.2⟩,
    ⟨by decide, by decide, by decide!,
      (shunting_yard_correct quotientChain (by decide)).2.2⟩,
    ⟨by decide, by decide, by decide!,
      (shunting_yard_correct differenceOfRemainder (by decide)).2.2⟩,
    by decide, by decide, by decide⟩

/-! ## The scanner, the patch loop and the cursor remap (C2 to C6) -/

theorem closeParen_some {s p rest : Str} (h : closeParen s = some (p, rest)) :
    p = [] ∧ s = ')' :: rest := by
  cases s with
  | nil => simp [closeParen] at h
  | cons c t =>
    simp only [closeParen] at h
    split_ifs at h with hc
    simp only [Option.some.injEq, Prod.mk.injEq] at h
    exact ⟨h.1.symm, by rw [hc, h.2]⟩

theorem span_append (p : Char → Bool) (s : Str) : (s.span p).1 ++ (s.span p).2 = s := by
  rw [List.span_eq_take_drop]
  exact List.takeWhile_append_dropWhile p s

theorem parenGroup_some {s a r : Str} (h : parenGroup s = some (a, r)) :
    s = a ++ r ∧ a ≠ [] := by
  cases s with
  | nil => simp [parenGroup] at h
  | cons c t =>
    simp only [parenGroup, List.span_eq_take_drop] at h
    split_ifs at h with hc
    have hsp := List.takeWhile_append_dropWhile notParen t
    cases hr : t.dropWhile notParen with
    | nil => simp [hr] at h
    | cons d rest =>
      rw [hr] at h hsp
      simp only at h
      split_ifs at h with hd
      simp only [Option.some.injEq, Prod.mk.injEq] at h
      obtain ⟨h1, h2⟩ := h
      subst h1 h2
      constructor
      · simp [hsp]
      · simp

theorem atom_some {s a r : Str} (h : atom s = some (a, r)) : s = a ++ r ∧ a ≠ [] := by
  cases s with
  | nil => simp [atom] at h
  | cons c t =>
    simp only [atom] at h
    split_ifs at h with hc
    · simp only [Option.some.injEq, Prod.mk.injEq] at h
      obtain ⟨h1, h2⟩ := h
      subst h1 h2
      simp
    · exact parenGroup_some h

theorem bodyThenClose_some (fuel : Nat) : ∀ {s p rest : Str},
    bodyThenClose fuel s = some (p, rest) → s = p ++ ')' :: rest := by
  induction fuel with
  | zero => intro s p rest h; simp [bodyThenClose] at h
  | succ n ih =>
    intro s p rest h
    simp only [bodyThenClose] at h
    cases ha : atom s with
    | none =>
      rw [ha] at h
      obtain ⟨h1, h2⟩ := closeParen_some h
      simp [h1, h2]
    | some ar =>
      obtain ⟨a, r⟩ := ar
      rw [ha] at h
      simp only at h
      cases hb : bodyThenClose n r with
      | none =>
        rw [hb] at h
        obtain ⟨h1, h2⟩ := closeParen_some h
        simp [h1, h2]
      | some pr =>
        obtain ⟨p1, rest1⟩ := pr
        rw [hb] at h
        simp only [Option.some.injEq, Prod.mk.injEq] at h
        obtain ⟨h1, h2⟩ := h
        subst h1 h2
        rw [(atom_some ha).1, ih hb]
        simp

theorem execAt_some {s p rest : Str} (h : execAt s = some (p, rest)) :
    s = '=' :: '(' :: (p ++ ')' :: rest) := by
  match s, h with
  | c :: d :: t, h =>
    simp only [execAt] at h
    split_ifs at h with hc
    rw [hc.1, hc.2, bodyThenClose_some _ h]

theorem execAt_length {s p rest : Str} (h : execAt s = some (p, rest)) :
    s.length = p.length + 3 + rest.length := by
  rw [execAt_some h]
  simp
  omega

theorem Placed.mono {len lo lo2 : Nat} {ms : List Match} (h : Placed len lo ms)
    (hle : lo2 ≤ lo) : Placed len lo2 ms := by
  cases ms with
  | nil => trivial
  | cons m ms => exact ⟨le_trans hle h.1, h.2.1, h.2.2⟩

theorem matchAllFrom_placed (fuel : Nat) : ∀ (i : Nat) (s : Str),
    Placed (i + s.length) i (matchAllFrom fuel i s) := by
  induction fuel with
  | zero => intro i s; simp [matchAllFrom, Placed]
  | succ n ih =>
    intro i s
    simp only [matchAllFrom]
    cases he : execAt s with
    | some pr =>
      obtain ⟨p, rest⟩ := pr
      have hlen := execAt_length he
      have h := ih (i + (p.length + 3)) rest
      have e1 : i + (p.length + 3) + rest.length = i + s.length := by omega
      rw [e1] at h
      refine ⟨le_refl _, ?_, ?_⟩
      · simp [Match.stop]; omega
      · simpa [Match.stop, Nat.add_assoc] using h
    | none =>
      cases s with
      | nil => simp [Placed]
      | cons c t =>
        have h := ih (i + 1) t
        have e1 : i + 1 + t.length = i + (c :: t).length := by simp; omega
        rw [e1] at h
        exact h.mono (by omega)

theorem matchAll_placed (s : Str) : Placed s.length 0 (matchAll s) := by
  have h := matchAllFrom_placed (s.length + 1) 0 s
  simpa [matchAll] using h
theorem patchLoop_eq (buffer : Str) (s e : Int) :
    patchLoop buffer s e
      = patchAll { newValue := buffer, newCursorPos := s, newSelectionEnd := e }
          (matchAll buffer) := by
  simp [patchLoop, patchAll, List.foldl_reverse]

theorem patchAll_cons (init : PatchState) (m : Match) (ms : List Match) :
    patchAll init (m :: ms) = patchStep (patchAll init ms) m := rfl

theorem remap_cons (m : Match) (ms : List Match) (p : Int) :
    remap (m :: ms) p = adjust (remap ms p) m.index m.stop m.replacement m.full.length := rfl

theorem patchAll_cursor (init : PatchState) (ms : List Match) :
    (patchAll init ms).newCursorPos = remap ms init.newCursorPos := by
  induction ms with
  | nil => rfl
  | cons m ms ih => rw [patchAll_cons, remap_cons, ← ih]; rfl

theorem patchAll_selectionEnd (init : PatchState) (ms : List Match) :
    (patchAll init ms).newSelectionEnd = remap ms init.newSelectionEnd := by
  induction ms with
  | nil => rfl
  | cons m ms ih => rw [patchAll_cons, remap_cons, ← ih]; rfl

theorem index_le_stop (m : Match) : m.index ≤ m.stop := by
  simp [Match.stop]

theorem patchAll_value (buffer : Str) (s e : Int) (ms : List Match) :
    ∀ lo, Placed buffer.length lo ms →
      (patchAll { newValue := buffer, newCursorPos := s, newSelectionEnd := e } ms).newValue
        = buffer.take lo ++ rebuild buffer lo ms := by
  induction ms with
  | nil =>
    intro lo _
    simp [patchAll, rebuild]
  | cons m ms ih =>
    intro lo h
    obtain ⟨h1, h2, h3⟩ := h
    have hi := index_le_stop m
    rw [patchAll_cons]
    simp only [patchStep]
    rw [ih m.stop h3]
    have hlen : (buffer.take m.stop).length = m.stop := by
      rw [List.length_take]; omega
    have e1 : (buffer.take m.stop ++ rebuild buffer m.stop ms).take m.index
        = buffer.take m.index := by
      rw [List.take_append_of_le_length (by omega), List.take_take]
      congr 1
      omega
    have e2 : (buffer.take m.stop ++ rebuild buffer m.stop ms).drop m.stop
        = rebuild buffer m.stop ms := by
      rw [List.drop_append_of_le_length (by omega), List.drop_of_length_le (by omega)]
      rfl
    have e3 : buffer.take lo ++ (buffer.take m.index).drop lo = buffer.take m.index := by
      have := List.take_append_drop lo (buffer.take m.index)
      rw [List.take_take] at this
      have hmin : min lo m.index = lo := by omega
      rw [hmin] at this
      exact this
    rw [e1, e2]
    simp only [rebuild, Match.replacement]
    rw [← List.append_assoc (buffer.take lo), e3]
    simp

/-- The sum of the length changes of the matches. -/
theorem rebuild_length (buffer : Str) (ms : List Match) :
    ∀ lo, lo ≤ buffer.length → Placed buffer.length lo ms →
      (lo : Int) + ((rebuild buffer lo ms).length : Int)
        = (buffer.length : Int) + (ms.map Match.delta).sum := by
  induction ms with
  | nil =>
    intro lo hlo _
    simp [rebuild]
    omega
  | cons m ms ih =>
    intro lo hlo h
    obtain ⟨h1, h2, h3⟩ := h
    have hi := index_le_stop m
    have := ih m.stop h2 h3
    simp only [rebuild, List.length_append, List.length_drop, List.length_take, List.map_cons,
      List.sum_cons, Match.delta]
    have hs : m.stop = m.index + m.full.length := rfl
    push_cast
    omega
theorem remap_before (len : Nat) (p : Int) (ms : List Match) :
    ∀ lo : Nat, Placed len lo ms → p < (lo : Int) → remap ms p = p := by
  induction ms with
  | nil => intro lo _ _; rfl
  | cons m ms ih =>
    intro lo h hp
    obtain ⟨h1, _, h3⟩ := h
    have hi := index_le_stop m
    rw [remap_cons, ih m.stop h3 (by omega)]
    simp only [adjust]
    rw [if_neg (by omega), if_neg (by omega)]

theorem remap_after (len : Nat) (p : Int) (ms : List Match) :
    ∀ lo : Nat, Placed len lo ms → (lo : Int) < p → (∀ m ∈ ms, (m.stop : Int) < p) →
      remap ms p = p + (ms.map Match.delta).sum ∧ (lo : Int) < remap ms p := by
  induction ms with
  | nil => intro lo _ hp _; exact ⟨by simp [remap], hp⟩
  | cons m ms ih =>
    intro lo h hp hall
    obtain ⟨h1, _, h3⟩ := h
    have hm : (m.stop : Int) < p := hall m (List.mem_cons_self _ _)
    obtain ⟨e1, e2⟩ := ih m.stop h3 hm (fun x hx => hall x (List.mem_cons_of_mem _ hx))
    have hs : m.stop = m.index + m.full.length := rfl
    rw [remap_cons]
    simp only [adjust]
    rw [if_pos e2, e1]
    simp only [List.map_cons, List.sum_cons, Match.delta]
    rw [e1] at e2
    constructor
    · omega
    · omega

theorem remap_le (buffer : Str) (p : Int) (hp : p ≤ (buffer.length : Int)) (ms : List Match) :
    ∀ lo : Nat, lo ≤ buffer.length → Placed buffer.length lo ms →
      remap ms p ≤ (buffer.length : Int) + (ms.map Match.delta).sum := by
  induction ms with
  | nil => intro lo _ _; simpa [remap] using hp
  | cons m ms ih =>
    intro lo hlo h
    obtain ⟨h1, h2, h3⟩ := h
    have hlen := rebuild_length buffer ms m.stop h2 h3
    have hrec := ih m.stop h2 h3
    have hs : m.stop = m.index + m.full.length := rfl
    rw [remap_cons]
    simp only [adjust, List.map_cons, List.sum_cons, Match.delta]
    split_ifs <;> omega

theorem stop_le_last (len : Nat) (ms : List Match) :
    ∀ lo : Nat, Placed len lo ms → ∀ l, ms.getLast? = some l → ∀ m ∈ ms, m.stop ≤ l.stop := by
  induction ms with
  | nil => intro lo _ l _ m hm; cases hm
  | cons a ms ih =>
    intro lo h l hl m hm
    obtain ⟨_, _, h3⟩ := h
    cases ms with
    | nil =>
      simp only [List.getLast?_singleton, Option.some.injEq] at hl
      simp only [List.mem_singleton] at hm
      rw [hm, hl]
    | cons b ms2 =>
      have hl2 : (b :: ms2).getLast? = some l := by
        rw [List.getLast?_cons_cons] at hl; exact hl
      have hb : b.stop ≤ l.stop := ih a.stop h3 l hl2 b (List.mem_cons_self _ _)
      rcases List.mem_cons.mp hm with hm | hm
      · rw [hm]
        have := h3.1
        have := index_le_stop b
        omega
      · exact ih a.stop h3 l hl2 m hm

theorem patchLoop_newValue (buffer : Str) (s e : Int) :
    (patchLoop buffer s e).newValue = rebuild buffer 0 (matchAll buffer) := by
  rw [patchLoop_eq, patchAll_value buffer s e _ 0 (matchAll_placed buffer)]
  simp

theorem patchLoop_length (buffer : Str) (s e : Int) :
    ((patchLoop buffer s e).newValue.length : Int)
      = (buffer.length : Int) + ((matchAll buffer).map Match.delta).sum := by
  rw [patchLoop_newValue]
  have := rebuild_length buffer (matchAll buffer) 0 (Nat.zero_le _) (matchAll_placed buffer)
  simpa using this

theorem remap_matchAll_before (buffer : Str) (p : Int)
    (h : ∀ m, (matchAll buffer).head? = some m → p < (m.index : Int)) :
    remap (matchAll buffer) p = p := by
  have hpl := matchAll_placed buffer
  cases hms : matchAll buffer with
  | nil => rfl
  | cons m ms =>
    rw [hms] at hpl h
    have hp := h m rfl
    exact remap_before buffer.length p (m :: ms) m.index ⟨le_refl _, hpl.2.1, hpl.2.2⟩ hp

theorem remap_matchAll_after (buffer : Str) (s e p : Int)
    (h : ∀ m, (matchAll buffer).getLast? = some m → (m.stop : Int) < p) :
    remap (matchAll buffer) p
      = p + (((patchLoop buffer s e).newValue.length : Int) - (buffer.length : Int)) := by
  have hpl := matchAll_placed buffer
  rw [patchLoop_length]
  cases hms : matchAll buffer with
  | nil => simp [remap]
  | cons m ms =>
    rw [hms] at hpl h
    obtain ⟨l, hl⟩ : ∃ l, (m :: ms).getLast? = some l :=
      ⟨(m :: ms).getLast (by simp), List.getLast?_eq_getLast _ _⟩
    have hlp := h l hl
    have hall : ∀ x ∈ m :: ms, (x.stop : Int) < p := by
      intro x hx
      have := stop_le_last buffer.length (m :: ms) 0 hpl l hl x hx
      omega
    have hm := hall m (List.mem_cons_self _ _)
    have hi := index_le_stop m
    have := (remap_after buffer.length p (m :: ms) 0 hpl (by omega) hall).1
    rw [this]
    ring
/-- C2: for every buffer, the matches of the scanner lie in the buffer in
ascending order without overlap, and the text the right-to-left patch loop of
`processElement` produces is the buffer rebuilt left to right:
`buffer[0,start1) + R1 + buffer[end1,start2) + ... + Rk + buffer[endk,len)` with
`Ri = evaluateExpression(payload of the i-th match)`. -/
theorem patchLoop_rebuilds_left_to_right (buffer : Str) (s e : Int) :
    Placed buffer.length 0 (matchAll buffer)
      ∧ (patchLoop buffer s e).newValue = rebuild buffer 0 (matchAll buffer) :=
  ⟨matchAll_placed buffer, patchLoop_newValue buffer s e⟩

/-- C3: for a buffer with exactly one match `[start, end)` replaced by `R`, with
`delta = len(R) - (end - start)`, the new text is
`buffer[0,start) + R + buffer[end,len)` and each selection offset `p` becomes
`p + delta` if `p > end`, `start + len(R)` if `start ≤ p ≤ end`, and stays `p` if
`p < start`. -/
theorem single_match_remap (buffer : Str) (s e : Int) (m : Match)
    (h : matchAll buffer = [m]) :
    (patchLoop buffer s e).newValue
        = buffer.take m.index ++ evaluateExpression m.expr ++ buffer.drop m.stop
      ∧ (∀ p p2 : Int,
          (p = s ∧ p2 = (patchLoop buffer s e).newCursorPos)
            ∨ (p = e ∧ p2 = (patchLoop buffer s e).newSelectionEnd) →
          ((m.stop : Int) < p →
              p2 = p + (((evaluateExpression m.expr).length : Int)
                        - ((m.stop : Int) - (m.index : Int))))
            ∧ ((m.index : Int) ≤ p ∧ p ≤ (m.stop : Int) →
              p2 = (m.index : Int) + ((evaluateExpression m.expr).length : Int))
            ∧ (p < (m.index : Int) → p2 = p)) := by
  have hs : m.stop = m.index + m.full.length := rfl
  have hv : patchLoop buffer s e
      = patchStep { newValue := buffer, newCursorPos := s, newSelectionEnd := e } m := by
    simp [patchLoop, h]
  rw [hv]
  refine ⟨rfl, ?_⟩
  intro p p2 hp
  rcases hp with ⟨h1, h2⟩ | ⟨h1, h2⟩ <;>
  · subst h1 h2
    simp only [patchStep, adjust]
    refine ⟨?_, ?_, ?_⟩
    · intro h3
      rw [if_pos h3]
      omega
    · intro h3
      rw [if_neg (by omega), if_pos h3.1]
    · intro h3
      rw [if_neg (by omega), if_neg (by omega)]

/-- C3, witness: the buffer `=(2+2)` with selection `(6,6)` has the single match
`[0,6)`; it becomes the buffer `4` with selection `(1,1)`. -/
theorem single_match_remap_witness :
    matchAll "=(2+2)".toList
        = [{ index := 0, full := "=(2+2)".toList, expr := "2+2".toList }]
      ∧ patchLoop "=(2+2)".toList 6 6
        = { newValue := "4".toList, newCursorPos := 1, newSelectionEnd := 1 }
      ∧ processElement "=(2+2)".toList 6 6 = some ("4".toList, 1, 1)
      ∧ (patchLoop "=(2+2)".toList 6 6).newValue
        = ("=(2+2)".toList).take 0 ++ evaluateExpression "2+2".toList
            ++ ("=(2+2)".toList).drop 6 :=
  ⟨by decide, by decide!, by decide!,
    (single_match_remap "=(2+2)".toList 6 6
      { index := 0, full := "=(2+2)".toList, expr := "2+2".toList } (by decide)).1⟩

/-- C4: for every buffer and each of the two selection offsets `p`: if `p` is
strictly before the start of the leftmost match the loop leaves it unchanged;
if `p` is strictly after the end of the rightmost match the loop returns
`p + (len(newBuffer) - len(buffer))`, and that difference of lengths is the sum
of the matches' deltas. -/
theorem remap_outside_matches (buffer : Str) (s e : Int) :
    ((∀ m, (matchAll buffer).head? = some m → s < (m.index : Int)) →
        (patchLoop buffer s e).newCursorPos = s)
      ∧ ((∀ m, (matchAll buffer).head? = some m → e < (m.index : Int)) →
        (patchLoop buffer s e).newSelectionEnd = e)
      ∧ ((∀ m, (matchAll buffer).getLast? = some m → (m.stop : Int) < s) →
        (patchLoop buffer s e).newCursorPos
          = s + (((patchLoop buffer s e).newValue.length : Int) - (buffer.length : Int)))
      ∧ ((∀ m, (matchAll buffer).getLast? = some m → (m.stop : Int) < e) →
        (patchLoop buffer s e).newSelectionEnd
          = e + (((patchLoop buffer s e).newValue.length : Int) - (buffer.length : Int)))
      ∧ ((patchLoop buffer s e).newValue.length : Int) - (buffer.length : Int)
          = ((matchAll buffer).map Match.delta).sum := by
  have hc : (patchLoop buffer s e).newCursorPos = remap (matchAll buffer) s := by
    rw [patchLoop_eq, patchAll_cursor]
  have hd : (patchLoop buffer s e).newSelectionEnd = remap (matchAll buffer) e := by
    rw [patchLoop_eq, patchAll_selectionEnd]
  refine ⟨?_, ?_, ?_, ?_, ?_⟩
  · intro h; rw [hc]; exact remap_matchAll_before buffer s h
  · intro h; rw [hd]; exact remap_matchAll_before buffer e h
  · intro h; rw [hc]; exact remap_matchAll_after buffer s e s h
  · intro h; rw [hd]; exact remap_matchAll_after buffer s e e h
  · rw [patchLoop_length]; ring

/-- C4, witness: in `a =(2+3*4) b =((2+3)*4) c` the matches are `[2,10)` and
`[13,23)`; the offset 1 stays 1 and the offset 24 becomes 24 + (11 - 25) = 10. -/
theorem remap_outside_matches_witness :
    (matchAll "a =(2+3*4) b =((2+3)*4) c".toList).map (fun m => (m.index, m.stop))
        = [(2, 10), (13, 23)]
      ∧ (patchLoop "a =(2+3*4) b =((2+3)*4) c".toList 1 24).newValue = "a 14 b 20 c".toList
      ∧ (patchLoop "a =(2+3*4) b =((2+3)*4) c".toList 1 24).newCursorPos = 1
      ∧ (patchLoop "a =(2+3*4) b =((2+3)*4) c".toList 1 24).newSelectionEnd
          = 24 + (((patchLoop "a =(2+3*4) b =((2+3)*4) c".toList 1 24).newValue.length : Int)
              - (("a =(2+3*4) b =((2+3)*4) c".toList).length : Int)) :=
  ⟨by decide, by decide!,
    (remap_outside_matches "a =(2+3*4) b =((2+3)*4) c".toList 1 24).1
      (by intro m hm; have h2 : m.index = 2 := by
            have : (matchAll "a =(2+3*4) b =((2+3)*4) c".toList).head?.map Match.index
                = some 2 := by decide
            rw [hm] at this; simpa using this
          rw [h2]; decide),
    (remap_outside_matches "a =(2+3*4) b =((2+3)*4) c".toList 1 24).2.2.2.1
      (by intro m hm; have h2 : m.stop = 23 := by
            have : (matchAll "a =(2+3*4) b =((2+3)*4) c".toList).getLast?.map Match.stop
                = some 23 := by decide
            rw [hm] at this; simpa using this
          rw [h2]; decide)⟩

/-- C5: for every buffer and every selection whose two offsets lie in
`[0, len(buffer)]`, the two offsets the patch loop yields, clamped to `≥ 0` as in
the call of `updateElement`, lie in `[0, len(newBuffer)]`. -/
theorem selection_stays_in_range (buffer : Str) (s e : Int)
    (hs : 0 ≤ s ∧ s ≤ (buffer.length : Int)) (he : 0 ≤ e ∧ e ≤ (buffer.length : Int)) :
    (0 ≤ max 0 (patchLoop buffer s e).newCursorPos
        ∧ max 0 (patchLoop buffer s e).newCursorPos
            ≤ ((patchLoop buffer s e).newValue.length : Int))
      ∧ (0 ≤ max 0 (patchLoop buffer s e).newSelectionEnd
        ∧ max 0 (patchLoop buffer s e).newSelectionEnd
            ≤ ((patchLoop buffer s e).newValue.length : Int))
      ∧ (∀ v a b, processElement buffer s e = some (v, a, b) →
          0 ≤ a ∧ a ≤ (v.length : Int) ∧ 0 ≤ b ∧ b ≤ (v.length : Int)) := by
  have hc : (patchLoop buffer s e).newCursorPos = remap (matchAll buffer) s := by
    rw [patchLoop_eq, patchAll_cursor]
  have hd : (patchLoop buffer s e).newSelectionEnd = remap (matchAll buffer) e := by
    rw [patchLoop_eq, patchAll_selectionEnd]
  have hlen := patchLoop_length buffer s e
  have h1 := remap_le buffer s hs.2 (matchAll buffer) 0 (Nat.zero_le _) (matchAll_placed buffer)
  have h2 := remap_le buffer e he.2 (matchAll buffer) 0 (Nat.zero_le _) (matchAll_placed buffer)
  rw [← hc] at h1
  rw [← hd] at h2
  have hn : (0 : Int) ≤ ((patchLoop buffer s e).newValue.length : Int) := Int.natCast_nonneg _
  have k1 : max 0 (patchLoop buffer s e).newCursorPos
      ≤ ((patchLoop buffer s e).newValue.length : Int) := max_le hn (by omega)
  have k2 : max 0 (patchLoop buffer s e).newSelectionEnd
      ≤ ((patchLoop buffer s e).newValue.length : Int) := max_le hn (by omega)
  refine ⟨⟨le_max_left _ _, k1⟩, ⟨le_max_left _ _, k2⟩, ?_⟩
  intro v a b hp
  simp only [processElement] at hp
  split_ifs at hp
  simp only [Option.some.injEq, Prod.mk.injEq] at hp
  obtain ⟨hv, ha, hb⟩ := hp
  subst hv ha hb
  exact ⟨le_max_left _ _, k1, le_max_left _ _, k2⟩

/-- C5, witness: `a =(2+3*4) b =((2+3)*4) c` (25 characters) with the selection
`(3, 25)` becomes `a 14 b 20 c` (11 characters) with the selection `(4, 11)`. -/
theorem selection_stays_in_range_witness :
    processElement "a =(2+3*4) b =((2+3)*4) c".toList 3 25 = some ("a 14 b 20 c".toList, 4, 11)
      ∧ (0 ≤ max 0 (patchLoop "a =(2+3*4) b =((2+3)*4) c".toList 3 25).newCursorPos
        ∧ max 0 (patchLoop "a =(2+3*4) b =((2+3)*4) c".toList 3 25).newCursorPos
            ≤ ((patchLoop "a =(2+3*4) b =((2+3)*4) c".toList 3 25).newValue.length : Int)) :=
  ⟨by decide!,
    (selection_stays_in_range "a =(2+3*4) b =((2+3)*4) c".toList 3 25
      (by decide) (by decide)).1⟩

/-- C6: for every buffer in which the scanner finds no match, and every
selection, the loop returns the buffer and both offsets unchanged, and
`processElement` calls no write-back. -/
theorem no_match_no_change (buffer : Str) (s e : Int) (h : matchAll buffer = []) :
    patchLoop buffer s e = { newValue := buffer, newCursorPos := s, newSelectionEnd := e }
      ∧ processElement buffer s e = none := by
  have h1 : patchLoop buffer s e
      = { newValue := buffer, newCursorPos := s, newSelectionEnd := e } := by
    simp [patchLoop, h]
  exact ⟨h1, by simp [processElement, h1]⟩

/-- C6, witness: `(2+3)*4 = 20` holds no bracket expression; with the selection
`(-1, 99)` nothing changes. -/
theorem no_match_no_change_witness :
    matchAll "(2+3)*4 = 20".toList = []
      ∧ patchLoop "(2+3)*4 = 20".toList (-1) 99
          = { newValue := "(2+3)*4 = 20".toList, newCursorPos := -1, newSelectionEnd := 99 }
      ∧ processElement "(2+3)*4 = 20".toList (-1) 99 = none :=
  ⟨by decide, no_match_no_change "(2+3)*4 = 20".toList (-1) 99 (by decide)⟩

/-! ## The expression resolver (C9) -/

theorem replaceFrom_congr (f g : Str → Str) (fuel : Nat) : ∀ s : Str,
    (∀ c : Str, c.length + 3 ≤ s.length → f c = g c) →
      replaceFrom f fuel s = replaceFrom g fuel s := by
  induction fuel with
  | zero => intro s _; rfl
  | succ n ih =>
    intro s h
    simp only [replaceFrom]
    cases he : execAt s with
    | some pr =>
      obtain ⟨p, rest⟩ := pr
      have hlen := execAt_length he
      simp only
      rw [h p (by omega), ih rest (fun c hc => h c (by omega))]
    | none =>
      cases s with
      | nil => rfl
      | cons c t =>
        simp only
        rw [ih t (fun x hx => h x (by simp only [List.length_cons]; omega))]

theorem depth_irrelevant (n : Nat) : ∀ (m : Nat) (p : Str), p.length < n → p.length < m →
    evaluateExpressionDepth n p = evaluateExpressionDepth m p := by
  induction n with
  | zero => intro m p h _; omega
  | succ k ih =>
    intro m p hn hm
    cases m with
    | zero => omega
    | succ j =>
      simp only [evaluateExpressionDepth, replaceAll]
      rw [replaceFrom_congr (evaluateExpressionDepth k) (evaluateExpressionDepth j)]
      intro c hc
      exact ih j c (by omega) (by omega)

/-- The body of `evaluateExpression` in the source: resolve, sanitize, evaluate. -/
theorem evaluateExpression_eq (expr : Str) :
    evaluateExpression expr = safeEval (sanitizeInput (resolveNested expr)) := by
  simp only [evaluateExpression, evaluateExpressionDepth, resolveNested, replaceAll]
  rw [replaceFrom_congr (evaluateExpressionDepth expr.length) evaluateExpression]
  intro c hc
  exact depth_irrelevant _ _ c (by omega) (by omega)

theorem filter_replaceFrom (f g : Str → Str) (fuel : Nat) : ∀ s : Str,
    (∀ c : Str, (f c).filter isAllowed = (g c).filter isAllowed) →
      (replaceFrom f fuel s).filter isAllowed = (replaceFrom g fuel s).filter isAllowed := by
  induction fuel with
  | zero => intro s _; rfl
  | succ n ih =>
    intro s h
    simp only [replaceFrom]
    cases he : execAt s with
    | some pr =>
      obtain ⟨p, rest⟩ := pr
      simp only [List.filter_append]
      rw [h p, ih rest h]
    | none =>
      cases s with
      | nil => rfl
      | cons c t =>
        simp only [List.filter_cons]
        rw [ih t h]

/-- C9, counterexample: the payload `2=()` (the capture of the match in `=(2=())`)
holds the nested bracket expression `=()`, whose evaluation is `ERROR`; the
enclosing payload evaluates to `2`, not to `ERROR`. -/
theorem nested_error_counterexample :
    (matchAll "=(2=())".toList).map Match.expr = ["2=()".toList]
      ∧ (matchAll "2=()".toList).map Match.expr = ["".toList]
      ∧ evaluateExpression "".toList = ERROR
      ∧ resolveNested "2=()".toList = "2ERROR".toList
      ∧ evaluateExpression "2=()".toList = "2".toList
      ∧ evaluateExpression "2=()".toList ≠ ERROR :=
  ⟨by decide, by decide, by decide, by decide!, by decide!, by decide!⟩

/-! ## Faults and non-finite results (C7, C8) -/

/-- C7, the code at the failing input: in the payload `*3` the operator `*` is
reached with one operand on the stack; `evaluatePostfix` signals nothing, it
returns NaN, and `safeEval` gives the text `NaN`, not `ERROR`.  In `2(3)` two
values are left on the stack and the bottom one is returned as `2`. -/
theorem operand_fault_yields_NaN_text :
    infixToPostfix (tokenize "*3".toList)
        = [Token.number (parseFloat ['3'] []), Token.operator '*']
      ∧ operandsOk [] ( infixToPostfix (tokenize "*3".toList)) = false
      ∧ evaluatePostfix ( infixToPostfix (tokenize "*3".toList)) = JSVal.number F64.nan
      ∧ safeEval "*3".toList = "NaN".toList
      ∧ processElement "=(*3)".toList 0 0 = some ("NaN".toList, 3, 3)
      ∧ (evalStack ( infixToPostfix (tokenize "2(3)".toList))).length = 2
      ∧ safeEval "2(3)".toList = "2".toList :=
  ⟨by decide, by decide, by decide, by decide, by decide!, by decide, by decide!⟩

/-- C8, the code at the failing inputs: `formatResult` returns `ERROR` for a
missing result only; NaN and the infinities pass the `typeof` test and are
rendered by `toFixed`, so the payload `5/0` is replaced by `Infinity`. -/
theorem non_finite_is_not_ERROR :
    formatResult JSVal.undefined = ERROR
      ∧ formatResult (JSVal.number F64.nan) = "NaN".toList
      ∧ formatResult (JSVal.number (F64.inf false)) = "Infinity".toList
      ∧ formatResult (JSVal.number (F64.inf true)) = "-Infinity".toList
      ∧ evaluatePostfix ( infixToPostfix (tokenize "5/0".toList)) = JSVal.number (F64.inf false)
      ∧ evaluateExpression "5/0".toList = "Infinity".toList
      ∧ processElement "=(5/0)".toList 0 0 = some ("Infinity".toList, 8, 8) :=
  ⟨by decide, by decide, by decide, by decide, by decide!, by decide!, by decide!⟩

/-! ## Replacement texts and nested resolution (C10) -/

theorem digitChar_plain {k : Nat} (h : k < 10) : plainChar (Nat.digitChar k) = true := by
  interval_cases k <;> decide

theorem digitChar_ne_dot {k : Nat} (h : k < 10) : Nat.digitChar k ≠ '.' := by
  interval_cases k <;> decide

theorem digitChar_ne_zero {k : Nat} (h : k < 10) (h0 : k ≠ 0) : Nat.digitChar k ≠ '0' := by
  interval_cases k <;> first | contradiction | decide

theorem toDigitsCore_plain (fuel : Nat) : ∀ (n : Nat) (ds : Str),
    (∀ c ∈ ds, plainChar c = true) → ∀ c ∈ Nat.toDigitsCore 10 fuel n ds, plainChar c = true := by
  induction fuel with
  | zero => intro n ds h; simpa [Nat.toDigitsCore] using h
  | succ k ih =>
    intro n ds h
    simp only [Nat.toDigitsCore]
    have hd : ∀ c ∈ Nat.digitChar (n % 10) :: ds, plainChar c = true := by
      intro c hc
      rcases List.mem_cons.mp hc with hc | hc
      · rw [hc]; exact digitChar_plain (Nat.mod_lt _ (by decide))
      · exact h c hc
    split_ifs
    · exact hd
    · exact ih _ _ hd

theorem natDigits_plain (n : Nat) : ∀ c ∈ natDigits n, plainChar c = true :=
  toDigitsCore_plain _ _ _ (by simp)

theorem toDigitsCore_head (fuel : Nat) : ∀ (n : Nat) (ds : Str), n < fuel →
    ∃ c rest, Nat.toDigitsCore 10 fuel n ds = c :: rest ∧ c ≠ '.' ∧ (n ≠ 0 → c ≠ '0') := by
  induction fuel with
  | zero => intro n ds h; omega
  | succ k ih =>
    intro n ds h
    simp only [Nat.toDigitsCore]
    split_ifs with h0
    · refine ⟨_, _, rfl, digitChar_ne_dot (Nat.mod_lt _ (by decide)), ?_⟩
      intro hn
      apply digitChar_ne_zero (Nat.mod_lt _ (by decide))
      omega
    · obtain ⟨c, rest, e1, e2, e3⟩ := ih (n / 10) (Nat.digitChar (n % 10) :: ds) (by omega)
      exact ⟨c, rest, e1, e2, fun _ => e3 h0⟩

theorem natDigits_head (n : Nat) :
    ∃ c rest, natDigits n = c :: rest ∧ c ≠ '.' ∧ (n ≠ 0 → c ≠ '0') :=
  toDigitsCore_head (n + 1) n [] (by omega)
theorem toDigitsCore_isDigit (fuel : Nat) : ∀ (n : Nat) (ds : Str),
    (∀ c ∈ ds, isDigit c = true) → ∀ c ∈ Nat.toDigitsCore 10 fuel n ds, isDigit c = true := by
  induction fuel with
  | zero => intro n ds h; simpa [Nat.toDigitsCore] using h
  | succ k ih =>
    intro n ds h
    simp only [Nat.toDigitsCore]
    have hk : ∀ j : Nat, j < 10 → isDigit (Nat.digitChar j) = true := by
      intro j hj
      interval_cases j <;> decide
    have hd : ∀ c ∈ Nat.digitChar (n % 10) :: ds, isDigit c = true := by
      intro c hc
      rcases List.mem_cons.mp hc with hc | hc
      · rw [hc]; exact hk _ (Nat.mod_lt _ (by decide))
      · exact h c hc
    split_ifs
    · exact hd
    · exact ih _ _ hd

theorem natDigits_isDigit (n : Nat) : ∀ c ∈ natDigits n, isDigit c = true :=
  toDigitsCore_isDigit _ _ _ (by simp)

theorem isDigit_plain {c : Char} (h : isDigit c = true) : plainChar c = true := by
  have h1 : c ≠ '=' := by rintro rfl; exact absurd h (by decide)
  have h2 : c ≠ '(' := by rintro rfl; exact absurd h (by decide)
  have h3 : c ≠ ')' := by rintro rfl; exact absurd h (by decide)
  simp [plainChar, h1, h2, h3]

theorem isDigit_ne_dot {c : Char} (h : isDigit c = true) : c ≠ '.' := by
  rintro rfl; exact absurd h (by decide)

theorem dropTrailingZeros_subset (ds : Str) : ∀ c ∈ dropTrailingZeros ds, c ∈ ds := by
  intro c hc
  simp only [dropTrailingZeros, List.mem_reverse] at hc
  have := (List.dropWhile_sublist (fun c => c == '0') (l := ds.reverse)).subset hc
  simpa using this

theorem roundsTo_zero {m : Nat} (e : Int) (h : m ≠ 0) : roundsTo 0 m e = false := by
  have h1 : roundF64 false 0 0 false = F64.fin false 0 0 := by decide
  simp only [roundsTo, h1, sameMag, Nat.zero_mul, decide_eq_false_iff_not]
  exact Nat.mul_ne_zero h (by positivity)

theorem shortestDecimal_ne_zero (m : Nat) (e : Int) (v d : Nat) (hm : m ≠ 0) (hv : v ≠ 0)
    (fuel : Nat) : ∀ k, shortestDecimal m e v d fuel k ≠ 0 := by
  induction fuel with
  | zero => intro k; simpa [shortestDecimal] using hv
  | succ n ih =>
    intro k
    simp only [shortestDecimal]
    have hp : 0 < 10 ^ (d - k) := by positivity
    have hlo : roundsTo (v / 10 ^ (d - k) * 10 ^ (d - k)) m e = true →
        v / 10 ^ (d - k) * 10 ^ (d - k) ≠ 0 := by
      intro h h0
      rw [h0, roundsTo_zero e hm] at h
      exact Bool.false_ne_true h
    have hhi : v / 10 ^ (d - k) * 10 ^ (d - k) + 10 ^ (d - k) ≠ 0 := by omega
    split_ifs with h1 h2 h3 h4 h5 h6 h7
    · exact hv
    · exact hlo (by simp only [Bool.and_eq_true] at h2; exact h2.1)
    · exact hhi
    · exact hlo (by simp only [Bool.and_eq_true] at h2; exact h2.1)
    · exact hhi
    · exact hlo h6
    · exact hhi
    · exact ih _
theorem plain_literals : plainChar 'e' = true ∧ plainChar '+' = true ∧ plainChar '.' = true
    ∧ plainChar '-' = true ∧ plainChar '0' = true := by decide

theorem magToString_plain (m : Nat) (e : Int) : ∀ c ∈ magToString m e, plainChar c = true := by
  intro c hc
  have hd : ∀ n, ∀ x ∈ natDigits n, plainChar x = true :=
    fun n x hx => isDigit_plain (natDigits_isDigit n x hx)
  simp only [magToString] at hc
  split_ifs at hc with hw
  · exact hd _ c hc
  · have hsub := dropTrailingZeros_subset
      (natDigits (shortestDecimal m e (intMag m e) (natDigits (intMag m e)).length
        (natDigits (intMag m e)).length 1))
    cases hz : dropTrailingZeros (natDigits (shortestDecimal m e (intMag m e)
        (natDigits (intMag m e)).length (natDigits (intMag m e)).length 1)) with
    | nil =>
      rw [hz] at hc
      exact hd _ c hc
    | cons a cs =>
      rw [hz] at hc hsub
      have ha : plainChar a = true := hd _ a (hsub a (List.mem_cons_self _ _))
      have hcs : ∀ x ∈ cs, plainChar x = true :=
        fun x hx => hd _ x (hsub x (List.mem_cons_of_mem _ hx))
      cases cs with
      | nil =>
        simp only [List.mem_cons] at hc
        rcases hc with h | h | h | h
        · rw [h]; exact ha
        · rw [h]; decide
        · rw [h]; decide
        · exact hd _ c h
      | cons b cs2 =>
        simp only [List.mem_cons, List.mem_append] at hc
        rcases hc with h | h | (h | h) | h | h | h
        · rw [h]; exact ha
        · rw [h]; decide
        · rw [h]; exact hcs b (List.mem_cons_self _ _)
        · exact hcs c (List.mem_cons_of_mem _ h)
        · rw [h]; decide
        · rw [h]; decide
        · exact hd _ c h

theorem magToString_solid (m : Nat) (e : Int) (hm : m ≠ 0) (hv : intMag m e ≠ 0) :
    Solid (magToString m e) := by
  have hw := shortestDecimal_ne_zero m e (intMag m e) (natDigits (intMag m e)).length hm hv
    (natDigits (intMag m e)).length 1
  obtain ⟨c0, r0, hds, hdot, hz0⟩ := natDigits_head (shortestDecimal m e (intMag m e)
    (natDigits (intMag m e)).length (natDigits (intMag m e)).length 1)
  have hsolid : Solid (natDigits (shortestDecimal m e (intMag m e)
      (natDigits (intMag m e)).length (natDigits (intMag m e)).length 1)) :=
    ⟨c0, r0, hds, hdot, c0, by rw [← hds]; rw [hds]; exact List.mem_cons_self _ _, hz0 hw⟩
  simp only [magToString]
  split_ifs with h1
  · exact hsolid
  · have hsub := dropTrailingZeros_subset
      (natDigits (shortestDecimal m e (intMag m e) (natDigits (intMag m e)).length
        (natDigits (intMag m e)).length 1))
    cases hz : dropTrailingZeros (natDigits (shortestDecimal m e (intMag m e)
        (natDigits (intMag m e)).length (natDigits (intMag m e)).length 1)) with
    | nil => exact hsolid
    | cons a cs =>
      rw [hz] at hsub
      have ha : a ≠ '.' :=
        isDigit_ne_dot (natDigits_isDigit _ a (hsub a (List.mem_cons_self _ _)))
      cases cs with
      | nil => exact ⟨a, _, rfl, ha, 'e', by simp, by decide⟩
      | cons b cs2 => exact ⟨a, _, rfl, ha, '.', by simp, by decide⟩

theorem magToString_ne_nil (m : Nat) (e : Int) : magToString m e ≠ [] := by
  obtain ⟨c0, r0, hds, _, _⟩ := natDigits_head (shortestDecimal m e (intMag m e)
    (natDigits (intMag m e)).length (natDigits (intMag m e)).length 1)
  simp only [magToString]
  split_ifs with h1
  · rw [hds]; simp
  · cases hz : dropTrailingZeros (natDigits (shortestDecimal m e (intMag m e)
        (natDigits (intMag m e)).length (natDigits (intMag m e)).length 1)) with
    | nil => simp only; rw [hds]; simp
    | cons a cs =>
      cases cs with
      | nil => simp
      | cons b cs2 => simp

theorem toStr_plain (x : F64) : x.toStr ≠ [] ∧ ∀ c ∈ x.toStr, plainChar c = true := by
  cases x with
  | nan => exact ⟨by decide, by decide⟩
  | inf neg => cases neg <;> exact ⟨by decide, by decide⟩
  | fin neg m e =>
    simp only [F64.toStr]
    split_ifs with h1 h2
    · exact ⟨by decide, by decide⟩
    · refine ⟨by simp, ?_⟩
      intro c hc
      rcases List.mem_cons.mp hc with h | h
      · rw [h]; decide
      · exact magToString_plain m e c h
    · exact ⟨magToString_ne_nil m e, magToString_plain m e⟩
theorem fixedDigits_spec (n : Nat) :
    Solid (fixedDigits n) ∧ ∀ c ∈ fixedDigits n, plainChar c = true := by
  have hpad : ∀ c ∈ List.replicate (3 - (natDigits n).length) '0' ++ natDigits n,
      isDigit c = true := by
    intro c hc
    rcases List.mem_append.mp hc with h | h
    · rw [(List.mem_replicate.mp h).2]; decide
    · exact natDigits_isDigit n c h
  have hlen : 3 ≤ (List.replicate (3 - (natDigits n).length) '0' ++ natDigits n).length := by
    simp only [List.length_append, List.length_replicate]; omega
  simp only [fixedDigits]
  generalize List.replicate (3 - (natDigits n).length) '0' ++ natDigits n = padded at hpad hlen
  constructor
  · cases htk : padded.take (padded.length - 2) with
    | nil =>
      have := congrArg List.length htk
      simp only [List.length_take, List.length_nil] at this
      omega
    | cons c t =>
      have hc : c ∈ padded := List.mem_of_mem_take (by rw [htk]; exact List.mem_cons_self _ _)
      exact ⟨c, _, rfl, isDigit_ne_dot (hpad c hc), '.', by simp, by decide⟩
  · intro c hc
    rcases List.mem_append.mp hc with h | h
    · exact isDigit_plain (hpad c (List.mem_of_mem_take h))
    · rcases List.mem_cons.mp h with h | h
      · rw [h]; decide
      · exact isDigit_plain (hpad c (List.mem_of_mem_drop h))

theorem magAtLeast1e21_pos {m : Nat} {e : Int} (h : magAtLeast1e21 m e = true) :
    m ≠ 0 ∧ intMag m e ≠ 0 := by
  simp only [magAtLeast1e21] at h
  simp only [intMag]
  split_ifs at h ⊢ with he
  · simp only [decide_eq_true_eq] at h
    have h1 : 0 < m * 2 ^ e.toNat := lt_of_lt_of_le (by positivity) h
    constructor
    · rintro rfl; simp at h1
    · omega
  · simp only [decide_eq_true_eq] at h
    have hp : 0 < 2 ^ (-e).toNat := by positivity
    have h2 : 1 * 2 ^ (-e).toNat ≤ m :=
      le_trans (Nat.mul_le_mul_right _ (by norm_num)) h
    have h3 : 1 ≤ m / 2 ^ (-e).toNat := (Nat.le_div_iff_mul_le hp).mpr h2
    constructor
    · rintro rfl; simp at h2
    · omega

theorem toFixed2_spec (x : F64) :
    Solid x.toFixed2 ∧ ∀ c ∈ x.toFixed2, plainChar c = true := by
  cases x with
  | nan => exact ⟨⟨'N', _, rfl, by decide, 'N', by decide, by decide⟩, by decide⟩
  | inf neg =>
    cases neg
    · exact ⟨⟨'I', _, rfl, by decide, 'I', by decide, by decide⟩, by decide⟩
    · exact ⟨⟨'-', _, rfl, by decide, '-', by decide, by decide⟩, by decide⟩
  | fin neg m e =>
    simp only [F64.toFixed2]
    by_cases hs : (neg && decide (m ≠ 0)) = true
    · rw [if_pos hs]
      constructor
      · split_ifs <;> exact ⟨'-', _, rfl, by decide, '-', by simp, by decide⟩
      · intro c hc
        split_ifs at hc
        · rcases List.mem_cons.mp hc with h | h
          · rw [h]; decide
          · exact magToString_plain m e c h
        · rcases List.mem_cons.mp hc with h | h
          · rw [h]; decide
          · exact (fixedDigits_spec _).2 c h
    · rw [if_neg hs]
      simp only [List.nil_append]
      split_ifs with hbig
      · obtain ⟨h1, h2⟩ := magAtLeast1e21_pos hbig
        exact ⟨magToString_solid m e h1 h2, magToString_plain m e⟩
      · exact fixedDigits_spec _

theorem stripTrailingZeros_subset : ∀ (s : Str), ∀ c ∈ stripTrailingZeros s, c ∈ s := by
  intro s
  induction s with
  | nil => intro c hc; simp [stripTrailingZeros] at hc
  | cons a t ih =>
    intro c hc
    simp only [stripTrailingZeros] at hc
    split_ifs at hc
    · cases hc
    · rcases List.mem_cons.mp hc with h | h
      · rw [h]; exact List.mem_cons_self _ _
      · exact List.mem_cons_of_mem _ (ih c h)

theorem stripTrailingZeros_ne_nil {s : Str} (h : Solid s) : stripTrailingZeros s ≠ [] := by
  obtain ⟨c, t, hs, hdot, y, hy, hy0⟩ := h
  subst hs
  have hz : dotZerosToEnd (c :: t) = false := by
    simp only [dotZerosToEnd, if_neg hdot]
    rw [Bool.eq_false_iff]
    intro hall
    rw [List.all_eq_true] at hall
    have := hall y hy
    simp only [beq_iff_eq] at this
    exact hy0 this
  simp [stripTrailingZeros, hz]

theorem formatResult_plain (v : JSVal) :
    formatResult v ≠ [] ∧ ∀ c ∈ formatResult v, plainChar c = true := by
  cases v with
  | undefined => exact ⟨by decide, by decide⟩
  | number x =>
    simp only [formatResult]
    split_ifs
    · exact toStr_plain x
    · exact ⟨stripTrailingZeros_ne_nil (toFixed2_spec x).1,
        fun c hc => (toFixed2_spec x).2 c (stripTrailingZeros_subset _ c hc)⟩

theorem evaluateExpression_plain (expr : Str) :
    evaluateExpression expr ≠ [] ∧ ∀ c ∈ evaluateExpression expr, plainChar c = true := by
  rw [evaluateExpression_eq]
  exact formatResult_plain _
theorem payloadTail_skip (b : Bool) (run x : Str) (h : ∀ c ∈ run, notParen c = true) :
    payloadTail b (run ++ x) = payloadTail b x := by
  induction run with
  | nil => rfl
  | cons c t ih =>
    have hc := h c (List.mem_cons_self _ _)
    simp only [notParen, Bool.and_eq_true, bne_iff_ne, ne_eq] at hc
    have ht := ih (fun y hy => h y (List.mem_cons_of_mem _ hy))
    cases b <;> simp [payloadTail, hc.1, hc.2, ht]

theorem atom_payload {s a r : Str} (h : atom s = some (a, r)) (p : Str) :
    payloadTail false (a ++ p) = payloadTail false p := by
  cases s with
  | nil => simp [atom] at h
  | cons c t =>
    simp only [atom] at h
    split_ifs at h with hc
    · simp only [Option.some.injEq, Prod.mk.injEq] at h
      rw [← h.1]
      exact payloadTail_skip false [c] p (by simpa using hc)
    · simp only [parenGroup, List.span_eq_take_drop] at h
      split_ifs at h with ho
      cases hr : t.dropWhile notParen with
      | nil => simp [hr] at h
      | cons d rest =>
        rw [hr] at h
        simp only at h
        split_ifs at h with hd
        simp only [Option.some.injEq, Prod.mk.injEq] at h
        rw [← h.1, ho, hd]
        have hrun : ∀ y ∈ t.takeWhile notParen, notParen y = true :=
          fun y hy => List.mem_takeWhile_imp hy
        have e1 : '(' :: (List.takeWhile notParen t ++ [')']) ++ p
            = '(' :: (List.takeWhile notParen t ++ ')' :: p) := by simp
        rw [e1]
        simp only [payloadTail, if_true]
        rw [payloadTail_skip true _ _ hrun]
        simp [payloadTail]

theorem bodyThenClose_payload (fuel : Nat) : ∀ {s p rest : Str},
    bodyThenClose fuel s = some (p, rest) → isPayload p = true := by
  induction fuel with
  | zero => intro s p rest h; simp [bodyThenClose] at h
  | succ n ih =>
    intro s p rest h
    simp only [bodyThenClose] at h
    cases ha : atom s with
    | none =>
      rw [ha] at h
      rw [(closeParen_some h).1]; rfl
    | some ar =>
      obtain ⟨a, r⟩ := ar
      rw [ha] at h
      simp only at h
      cases hb : bodyThenClose n r with
      | none =>
        rw [hb] at h
        rw [(closeParen_some h).1]; rfl
      | some pr =>
        obtain ⟨p1, rest1⟩ := pr
        rw [hb] at h
        simp only [Option.some.injEq, Prod.mk.injEq] at h
        rw [← h.1]
        simp only [isPayload]
        rw [atom_payload ha]
        exact ih hb

theorem execAt_payload {s p rest : Str} (h : execAt s = some (p, rest)) :
    isPayload p = true := by
  match s, h with
  | c :: d :: t, h =>
    simp only [execAt] at h
    split_ifs at h with hc
    exact bodyThenClose_payload _ h

theorem matchAllFrom_payload (fuel : Nat) : ∀ (i : Nat) (s : Str),
    ∀ m ∈ matchAllFrom fuel i s, isPayload m.expr = true := by
  induction fuel with
  | zero => intro i s m hm; simp [matchAllFrom] at hm
  | succ n ih =>
    intro i s m hm
    simp only [matchAllFrom] at hm
    cases he : execAt s with
    | some pr =>
      obtain ⟨p, rest⟩ := pr
      rw [he] at hm
      rcases List.mem_cons.mp hm with h | h
      · rw [h]; exact execAt_payload he
      · exact ih _ _ m h
    | none =>
      rw [he] at hm
      cases s with
      | nil => simp at hm
      | cons c t => exact ih _ _ m hm

/-- Every capture the scanner returns is a payload. -/
theorem matchAll_payload (s : Str) : ∀ m ∈ matchAll s, isPayload m.expr = true :=
  matchAllFrom_payload _ _ _

theorem hasEqParen_cons_cons (c d : Char) (t : Str) :
    hasEqParen (c :: d :: t) = ((c == '=' && d == '(') || hasEqParen (d :: t)) := rfl

theorem payload_no_paren : ∀ (p x : Str), payloadTail false p = true →
    payloadTail true (p ++ x) = true → ∀ c ∈ p, notParen c = true := by
  intro p
  induction p with
  | nil => intro x _ _ c hc; cases hc
  | cons a t ih =>
    intro x h1 h2 c hc
    by_cases ha : a = '('
    · simp [payloadTail, ha] at h2
    · by_cases hb : a = ')'
      · simp [payloadTail, hb] at h1
      · simp only [payloadTail, if_neg ha, if_neg hb] at h1
        simp only [List.cons_append, payloadTail, if_neg ha, if_neg hb] at h2
        have hna : notParen a = true := by simp [notParen, ha, hb]
        rcases List.mem_cons.mp hc with h | h
        · rw [h]; exact hna
        · exact ih x h1 h2 c h

theorem bodyThenClose_complete : ∀ (t : Str) (fuel : Nat), payloadTail true t = true →
    t.length < fuel → (bodyThenClose fuel t).isSome = true := by
  intro t
  induction t with
  | nil => intro fuel h _; simp [payloadTail] at h
  | cons c t ih =>
    intro fuel h hf
    cases fuel with
    | zero => omega
    | succ n =>
      simp only [payloadTail] at h
      split_ifs at h with h1 h2
      · subst h1
        have ha : atom (')' :: t) = none := by
          simp [atom, notParen, parenGroup]
        simp [bodyThenClose, ha, closeParen]
      · have ha : atom (c :: t) = some ([c], t) := by
          simp [atom, notParen, h1, h2]
        have := ih n h (by simp only [List.length_cons] at hf; omega)
        obtain ⟨pr, hpr⟩ := Option.isSome_iff_exists.mp this
        simp [bodyThenClose, ha, hpr]

theorem payloadTail_tail {b : Bool} {c : Char} {t : Str} (h : payloadTail b (c :: t) = true) :
    ∃ b2, payloadTail b2 t = true := by
  cases b <;> simp only [payloadTail] at h <;> split_ifs at h <;> exact ⟨_, h⟩

theorem hasEqParen_append_plain (a b : Str) (h : ∀ c ∈ a, plainChar c = true) (ha : a ≠ []) :
    hasEqParen (a ++ b) = hasEqParen b ∧ (a ++ b).head? ≠ some '(' := by
  induction a with
  | nil => exact absurd rfl ha
  | cons c t ih =>
    have hc := h c (List.mem_cons_self _ _)
    simp only [plainChar, Bool.and_eq_true, bne_iff_ne, ne_eq] at hc
    refine ⟨?_, by simp [hc.1.2]⟩
    cases t with
    | nil =>
      cases b with
      | nil => simp [hasEqParen]
      | cons d b2 => simp [hasEqParen, hc.1.1]
    | cons d t2 =>
      have := (ih (fun y hy => h y (List.mem_cons_of_mem _ hy)) (by simp)).1
      simp only [List.cons_append] at this ⊢
      rw [hasEqParen_cons_cons, this]
      simp [hc.1.1]

theorem replaceFrom_no_eqParen (f : Str → Str)
    (hf : ∀ r, f r ≠ [] ∧ ∀ c ∈ f r, plainChar c = true) (fuel : Nat) :
    ∀ (s : Str) (b : Bool), s.length < fuel → payloadTail b s = true →
      hasEqParen (replaceFrom f fuel s) = false
        ∧ ((replaceFrom f fuel s).head? = some '(' → s.head? = some '(') := by
  induction fuel with
  | zero => intro s b h _; omega
  | succ n ih =>
    intro s b hlen hp
    simp only [replaceFrom]
    cases he : execAt s with
    | some pr =>
      obtain ⟨p, rest⟩ := pr
      have hs := execAt_some he
      have hl := execAt_length he
      simp only
      have hb : b = false := by
        cases b
        · rfl
        · rw [hs] at hp; simp [payloadTail] at hp
      subst hb
      have hp2 : payloadTail true (p ++ ')' :: rest) = true := by
        rw [hs] at hp; simpa [payloadTail] using hp
      have hnp := payload_no_paren p _ (execAt_payload he) hp2
      rw [payloadTail_skip true p _ hnp] at hp2
      have hrest : payloadTail false rest = true := by simpa [payloadTail] using hp2
      obtain ⟨i1, _⟩ := ih rest false (by omega) hrest
      obtain ⟨k1, k2⟩ := hasEqParen_append_plain (f p) (replaceFrom f n rest) (hf p).2 (hf p).1
      exact ⟨by rw [k1, i1], fun h => absurd h k2⟩
    | none =>
      cases s with
      | nil => simp [hasEqParen]
      | cons c t =>
        simp only
        obtain ⟨b2, hb2⟩ := payloadTail_tail hp
        obtain ⟨i1, i2⟩ := ih t b2 (by simp only [List.length_cons] at hlen; omega) hb2
        refine ⟨?_, by simp⟩
        cases ho : replaceFrom f n t with
        | nil => simp [hasEqParen]
        | cons d o2 =>
          rw [ho] at i1 i2
          rw [hasEqParen_cons_cons, i1, Bool.or_false]
          rw [Bool.eq_false_iff]
          intro hcd
          simp only [Bool.and_eq_true, beq_iff_eq] at hcd
          obtain ⟨hc, hd⟩ := hcd
          subst hc hd
          have ht : t.head? = some '(' := i2 rfl
          obtain ⟨t2, ht2⟩ : ∃ t2, t = '(' :: t2 := by
            cases t with
            | nil => simp at ht
            | cons x t2 => simp only [List.head?_cons, Option.some.injEq] at ht; exact ⟨t2, by rw [ht]⟩
          subst ht2
          have hb : b = false := by
            cases b
            · rfl
            · simp [payloadTail] at hp
          subst hb
          have hp3 : payloadTail true t2 = true := by simpa [payloadTail] using hp
          have := bodyThenClose_complete t2 (t2.length + 1) hp3 (by omega)
          simp [execAt] at he
          rw [he] at this
          simp at this
theorem hasEqParen_tail {c : Char} {t : Str} (h : hasEqParen (c :: t) = false) :
    hasEqParen t = false := by
  cases t with
  | nil => rfl
  | cons d t2 =>
    rw [hasEqParen_cons_cons, Bool.or_eq_false_iff] at h
    exact h.2

theorem execAt_none_of_no_eqParen {s : Str} (h : hasEqParen s = false) : execAt s = none := by
  cases he : execAt s with
  | none => rfl
  | some pr =>
    obtain ⟨p, rest⟩ := pr
    rw [execAt_some he, hasEqParen_cons_cons] at h
    simp at h

theorem replaceFrom_id (g : Str → Str) (fuel : Nat) : ∀ s : Str, hasEqParen s = false →
    replaceFrom g fuel s = s := by
  induction fuel with
  | zero => intro s _; rfl
  | succ n ih =>
    intro s h
    simp only [replaceFrom, execAt_none_of_no_eqParen h]
    cases s with
    | nil => rfl
    | cons c t => simp only; rw [ih t (hasEqParen_tail h)]

theorem replaceFrom_of_no_match (f : Str → Str) (fuel : Nat) : ∀ (i : Nat) (s : Str),
    matchAllFrom fuel i s = [] → replaceFrom f fuel s = s := by
  induction fuel with
  | zero => intro i s _; rfl
  | succ n ih =>
    intro i s h
    simp only [matchAllFrom] at h
    simp only [replaceFrom]
    cases he : execAt s with
    | some pr => rw [he] at h; simp at h
    | none =>
      rw [he] at h
      cases s with
      | nil => rfl
      | cons c t => simp only at h ⊢; rw [ih _ t h]

/-- After `resolveNested`, a payload holds no bracket pattern any more. -/
theorem resolveNested_no_eqParen (expr : Str) (h : isPayload expr = true) :
    hasEqParen (resolveNested expr) = false :=
  (replaceFrom_no_eqParen evaluateExpression evaluateExpression_plain _ expr false
    (Nat.lt_succ_self _) h).1

/-- C10: for every payload (a text whose parentheses balance with nesting depth at
most one, as every capture of the scanner is), `evaluateExpression(payload)`
equals `evaluateExpression(payload')`, where `payload'` is the payload with each
nested bracket expression replaced by its own `evaluateExpression` result; the
result is `safeEval(sanitizeInput(payload'))`, and a payload with no nested
bracket expression reaches the sanitizer unchanged. -/
theorem nested_resolution_substitutes (expr : Str) (h : isPayload expr = true) :
    evaluateExpression expr = evaluateExpression (resolveNested expr)
      ∧ evaluateExpression expr = safeEval (sanitizeInput (resolveNested expr))
      ∧ (matchAll expr = [] → resolveNested expr = expr) := by
  have h1 := evaluateExpression_eq expr
  have h2 : resolveNested (resolveNested expr) = resolveNested expr :=
    replaceFrom_id _ _ _ (resolveNested_no_eqParen expr h)
  refine ⟨?_, h1, ?_⟩
  · rw [evaluateExpression_eq (resolveNested expr), h2, h1]
  · intro hm
    exact replaceFrom_of_no_match _ _ 0 expr hm

/-- C10, witness: the payload `1+=(2*3)`, the capture of the match in
`=(1+=(2*3))`, becomes `1+6` and evaluates to `7`, as `1+6` does. -/
theorem nested_resolution_substitutes_witness :
    (matchAll "=(1+=(2*3))".toList).map Match.expr = ["1+=(2*3)".toList]
      ∧ isPayload "1+=(2*3)".toList = true
      ∧ resolveNested "1+=(2*3)".toList = "1+6".toList
      ∧ evaluateExpression "1+=(2*3)".toList = "7".toList
      ∧ evaluateExpression "1+6".toList = "7".toList
      ∧ evaluateExpression "1+=(2*3)".toList
          = evaluateExpression (resolveNested "1+=(2*3)".toList) :=
  ⟨by decide, by decide, by decide!, by decide!, by decide!,
    (nested_resolution_substitutes "1+=(2*3)".toList (by decide)).1⟩

/-- The restriction of C10 to payloads matters: on a text with parentheses nested
two deep, which no capture of the scanner is, resolving first changes the
result. -/
theorem nested_resolution_needs_payload :
    isPayload "=((=(1))+1)2".toList = false
      ∧ resolveNested "=((=(1))+1)2".toList = "=((1)+1)2".toList
      ∧ evaluateExpression "=((=(1))+1)2".toList = "2".toList
      ∧ evaluateExpression "=((1)+1)2".toList = "22".toList :=
  ⟨by decide, by decide!, by decide!, by decide!⟩

/-! ## What the evaluator does on a fault (C7) -/

theorem nan_operand (c : Char) (h : c = '+' ∨ c = '-' ∨ c = '*' ∨ c = '/' ∨ c = '%') (b : F64) :
    applyOp c F64.nan b = F64.nan := by
  rcases h with h | h | h | h | h <;> subst h <;> cases b <;> rfl

/-- C7, as the code has it: `evaluatePostfix` signals no fault.  An operator among
`+ - * / %` reached with fewer than two operands takes `undefined` for each
missing one and pushes NaN; after the last token the bottom value of the stack
is the result, however many values are left; only when no value is left is there
no result, and then the text `safeEval` produces is `ERROR`. -/
theorem evaluatePostfix_never_faults (pf : List Token) :
    (∀ (stack : List F64) (c : Char), (c = '+' ∨ c = '-' ∨ c = '*' ∨ c = '/' ∨ c = '%') →
        stack.length < 2 → evalStep stack (Token.operator c) = [F64.nan])
      ∧ (∀ x, (evalStack pf).getLast? = some x → evaluatePostfix pf = JSVal.number x)
      ∧ (evalStack pf = [] →
          evaluatePostfix pf = JSVal.undefined ∧ formatResult (evaluatePostfix pf) = ERROR)
      ∧ (∀ expr, evalStack ( infixToPostfix (tokenize expr)) = [] → safeEval expr = ERROR) := by
  refine ⟨?_, ?_, ?_, ?_⟩
  · intro stack c hc hlen
    match stack, hlen with
    | [], _ =>
      rcases hc with h | h | h | h | h <;> subst h <;> rfl
    | [b], _ =>
      have := nan_operand c hc b
      rcases hc with h | h | h | h | h <;> subst h <;>
        simpa [evalStep, applyOp, toNumber] using this
  · intro x hx
    simp [evaluatePostfix, hx]
  · intro h
    simp [evaluatePostfix, h, formatResult]
  · intro expr h
    simp [safeEval, evaluatePostfix, h, formatResult]

/-- C7, the amended claim at concrete inputs: the empty payload and the payload
`(5` leave no value and give `ERROR`; in `2(3)` the bottom value 2 is the
result. -/
theorem evaluatePostfix_never_faults_witness :
    safeEval "".toList = ERROR
      ∧ safeEval "(5".toList = ERROR
      ∧ evaluatePostfix ( infixToPostfix (tokenize "2(3)".toList))
          = JSVal.number (parseFloat ['2'] []) :=
  ⟨(evaluatePostfix_never_faults []).2.2.2 "".toList (by decide),
    (evaluatePostfix_never_faults []).2.2.2 "(5".toList (by decide),
    (evaluatePostfix_never_faults ( infixToPostfix (tokenize "2(3)".toList))).2.1 _ (by decide)⟩

/-! ## Shape of the matches (C12) and the write-back (C20) -/

theorem matchAllFrom_text (fuel : Nat) : ∀ (i : Nat) (s buffer : Str), buffer.drop i = s →
    ∀ m ∈ matchAllFrom fuel i s,
      m.full = '=' :: '(' :: (m.expr ++ [')']) ∧ ∃ rest, buffer.drop m.index = m.full ++ rest := by
  induction fuel with
  | zero => intro i s buffer _ m hm; simp [matchAllFrom] at hm
  | succ n ih =>
    intro i s buffer hb m hm
    simp only [matchAllFrom] at hm
    cases he : execAt s with
    | some pr =>
      obtain ⟨p, rest⟩ := pr
      rw [he] at hm
      have hs := execAt_some he
      rcases List.mem_cons.mp hm with h | h
      · subst h
        exact ⟨rfl, rest, by rw [hb, hs]; simp⟩
      · refine ih (i + (p.length + 3)) rest buffer ?_ m h
        rw [← List.drop_drop, hb, hs]
        have e1 : '=' :: '(' :: (p ++ ')' :: rest) = ('=' :: '(' :: (p ++ [')'])) ++ rest := by
          simp
        rw [e1, List.drop_left' (by simp)]
    | none =>
      rw [he] at hm
      cases s with
      | nil => simp at hm
      | cons c t =>
        refine ih (i + 1) t buffer ?_ m hm
        rw [← List.drop_drop, hb]
        rfl

theorem matchAll_text (buffer : Str) : ∀ m ∈ matchAll buffer,
    m.full = '=' :: '(' :: (m.expr ++ [')']) ∧ ∃ rest, buffer.drop m.index = m.full ++ rest :=
  matchAllFrom_text _ 0 buffer buffer rfl

theorem placed_pairwise (len : Nat) (ms : List Match) : ∀ lo : Nat, Placed len lo ms →
    (∀ m ∈ ms, 0 < m.full.length) →
      ms.Pairwise (fun a b => a.index < b.index ∧ a.stop ≤ b.index)
        ∧ ∀ m ∈ ms, lo ≤ m.index ∧ m.stop ≤ len := by
  induction ms with
  | nil => intro lo _ _; exact ⟨List.Pairwise.nil, fun m hm => by cases hm⟩
  | cons a ms ih =>
    intro lo h hpos
    obtain ⟨h1, h2, h3⟩ := h
    obtain ⟨i1, i2⟩ := ih a.stop h3 (fun m hm => hpos m (List.mem_cons_of_mem _ hm))
    have ha := hpos a (List.mem_cons_self _ _)
    have hs : a.stop = a.index + a.full.length := rfl
    refine ⟨List.Pairwise.cons ?_ i1, ?_⟩
    · intro b hb
      have := (i2 b hb).1
      exact ⟨by omega, this⟩
    · intro m hm
      rcases List.mem_cons.mp hm with h | h
      · rw [h]; exact ⟨h1, h2⟩
      · have := i2 m h
        exact ⟨by omega, this.2⟩

/-- C12: for every buffer, the matches of the scanner are in strictly ascending
order of start and do not overlap (the end of a match is at most the start of
every later one); the text of each match is `=(` followed by its payload
followed by `)` and is the text of the buffer at the match's offset; and every
payload has balanced parentheses nested at most one deep. -/
theorem scanner_matches_wellformed (buffer : Str) :
    (matchAll buffer).Pairwise (fun a b => a.index < b.index ∧ a.stop ≤ b.index)
      ∧ ∀ m ∈ matchAll buffer,
          m.full = '=' :: '(' :: (m.expr ++ [')'])
            ∧ (buffer.drop m.index).take m.full.length = m.full
            ∧ m.stop ≤ buffer.length
            ∧ isPayload m.expr = true := by
  have htext := matchAll_text buffer
  have hpos : ∀ m ∈ matchAll buffer, 0 < m.full.length := by
    intro m hm
    rw [(htext m hm).1]
    simp
  obtain ⟨h1, h2⟩ := placed_pairwise buffer.length (matchAll buffer) 0 (matchAll_placed buffer) hpos
  refine ⟨h1, ?_⟩
  intro m hm
  obtain ⟨e1, rest, e2⟩ := htext m hm
  refine ⟨e1, ?_, (h2 m hm).2, matchAll_payload buffer m hm⟩
  rw [e2, List.take_left' rfl]

theorem rebuild_ne (buffer : Str) (m : Match) (ms : List Match)
    (hpl : Placed buffer.length 0 (m :: ms))
    (htext : ∃ rest, buffer.drop m.index = '=' :: rest) :
    rebuild buffer 0 (m :: ms) ≠ buffer := by
  obtain ⟨rest, hrest⟩ := htext
  obtain ⟨hne, hplain⟩ := evaluateExpression_plain m.expr
  intro heq
  have h1 : (rebuild buffer 0 (m :: ms)).drop m.index = buffer.drop m.index := by rw [heq]
  have hlen : (buffer.take m.index).length = m.index := by
    have := hpl.2.1
    have := index_le_stop m
    rw [List.length_take]; omega
  simp only [rebuild, List.drop_zero, Match.replacement] at h1
  rw [List.drop_left' hlen, hrest] at h1
  cases hr : evaluateExpression m.expr with
  | nil => exact hne hr
  | cons c t =>
    rw [hr] at h1 hplain
    simp only [List.cons_append, List.cons.injEq] at h1
    have := hplain c (List.mem_cons_self _ _)
    rw [h1.1] at this
    exact absurd this (by decide)

theorem patchLoop_changes (buffer : Str) (s e : Int) (h : matchAll buffer ≠ []) :
    (patchLoop buffer s e).newValue ≠ buffer := by
  rw [patchLoop_newValue]
  have hpl := matchAll_placed buffer
  have htext := matchAll_text buffer
  cases hms : matchAll buffer with
  | nil => exact absurd hms h
  | cons m ms =>
    rw [hms] at hpl htext
    obtain ⟨e1, rest, e2⟩ := htext m (List.mem_cons_self _ _)
    exact rebuild_ne buffer m ms hpl ⟨_, by rw [e2, e1]; rfl⟩

/-- C20: for every buffer in which the scanner finds at least one match, the text
`processElement` produces differs from the buffer (the replacement of the
leftmost match is not empty and does not begin with `=`), so the write-back is
triggered; with the no-match case, it is triggered if and only if the buffer
holds a match. -/
theorem write_back_iff_match (buffer : Str) (s e : Int) :
    (matchAll buffer ≠ [] → (patchLoop buffer s e).newValue ≠ buffer)
      ∧ (∀ m ∈ matchAll buffer,
          evaluateExpression m.expr ≠ [] ∧ (evaluateExpression m.expr).head? ≠ some '=')
      ∧ ((processElement buffer s e).isSome = true ↔ matchAll buffer ≠ []) := by
  refine ⟨patchLoop_changes buffer s e, ?_, ?_⟩
  · intro m _
    obtain ⟨hne, hplain⟩ := evaluateExpression_plain m.expr
    refine ⟨hne, ?_⟩
    cases hr : evaluateExpression m.expr with
    | nil => simp
    | cons c t =>
      rw [hr] at hplain
      have := hplain c (List.mem_cons_self _ _)
      intro hc
      simp only [List.head?_cons, Option.some.injEq] at hc
      rw [hc] at this
      exact absurd this (by decide)
  · constructor
    · intro hsome hnil
      have hnone : processElement buffer s e = none := by
        simp [processElement, patchLoop, hnil]
      rw [hnone] at hsome
      simp at hsome
    · intro hne
      have := patchLoop_changes buffer s e hne
      simp [processElement, this]

/-- C20, at concrete inputs: `=()` is replaced by `ERROR` and `a=(1)` by `a1`, and
the write-back happens; `a(1)` holds no match and nothing is written. -/
theorem write_back_iff_match_witness :
    processElement "=()".toList 0 0 = some ("ERROR".toList, 5, 5)
      ∧ processElement "a=(1)".toList 0 0 = some ("a1".toList, 0, 0)
      ∧ processElement "a(1)".toList 0 0 = none
      ∧ (patchLoop "a=(1)".toList 0 0).newValue ≠ "a=(1)".toList :=
  ⟨by decide!, by decide!, by decide!,
    (write_back_iff_match "a=(1)".toList 0 0).1 (by decide)⟩

/-! ## Termination of the resolver (C16) -/

theorem replaceFromOpt_some (f : Str → Option Str) (g : Str → Str) (fuel : Nat) : ∀ s : Str,
    (∀ c : Str, c.length + 3 ≤ s.length → f c = some (g c)) →
      replaceFromOpt f fuel s = some (replaceFrom g fuel s) := by
  induction fuel with
  | zero => intro s _; rfl
  | succ n ih =>
    intro s h
    simp only [replaceFromOpt, replaceFrom]
    cases he : execAt s with
    | some pr =>
      obtain ⟨p, rest⟩ := pr
      have hlen := execAt_length he
      simp only
      rw [h p (by omega), ih rest (fun c hc => h c (by omega))]
    | none =>
      cases s with
      | nil => rfl
      | cons c t =>
        simp only
        rw [ih t (fun x hx => h x (by simp only [List.length_cons]; omega))]
        rfl

theorem evaluateWithin_eq (depth : Nat) : ∀ expr : Str, expr.length < depth →
    evaluateWithin depth expr = some (evaluateExpressionDepth depth expr) := by
  induction depth with
  | zero => intro expr h; omega
  | succ d ih =>
    intro expr h
    simp only [evaluateWithin, evaluateExpressionDepth, replaceAll]
    rw [replaceFromOpt_some (evaluateWithin d) (evaluateExpressionDepth d)]
    · rfl
    · intro c hc
      exact ih c (by omega)

theorem capture_shorter (s : Str) : ∀ m ∈ matchAll s, m.expr.length + 3 ≤ s.length := by
  intro m hm
  have h1 := (matchAll_text s m hm).1
  have h2 := (placed_pairwise s.length (matchAll s) 0 (matchAll_placed s)
    (fun x hx => by rw [(matchAll_text s x hx).1]; simp)).2 m hm
  have h3 : m.full.length = m.expr.length + 3 := by rw [h1]; simp
  have hs : m.stop = m.index + m.full.length := rfl
  omega

/-- C16: for every string, every capture handed to the recursive call is strictly
shorter than the string it was found in, and therefore the recursion
`evaluateExpression -> resolveNested -> evaluateExpression` returns: run with a
bound on the depth of nested calls larger than the length of the string, it
never uses the bound up and returns `evaluateExpression(expr)`, which is
`safeEval(sanitizeInput(resolveNested(expr)))`. -/
theorem resolver_terminates (expr : Str) :
    (∀ m ∈ matchAll expr, m.expr.length < expr.length)
      ∧ (∀ depth, expr.length < depth →
          evaluateWithin depth expr = some (evaluateExpression expr))
      ∧ evaluateExpression expr = safeEval (sanitizeInput (resolveNested expr)) := by
  refine ⟨?_, ?_, evaluateExpression_eq expr⟩
  · intro m hm
    have := capture_shorter expr m hm
    omega
  · intro depth h
    rw [evaluateWithin_eq depth expr h]
    congr 1
    exact depth_irrelevant _ _ expr h (Nat.lt_succ_self _)

/-- C16, at a concrete input: `=(1+=(2*3))` needs three nested calls; with two the
recursion does not return, with three or more it returns `7`. -/
theorem resolver_terminates_witness :
    evaluateWithin 2 "=(1+=(2*3))".toList = none
      ∧ evaluateWithin 3 "=(1+=(2*3))".toList = some "7".toList
      ∧ evaluateWithin 12 "=(1+=(2*3))".toList = some (evaluateExpression "=(1+=(2*3))".toList) :=
  ⟨by decide!, by decide!, (resolver_terminates "=(1+=(2*3))".toList).2.1 12 (by decide)⟩

/-! ## Monotonicity of the cursor remap (C17) -/

theorem adjust_mono (p q : Int) (h : p ≤ q) (start full : Nat) (r : Str) :
    adjust p start (start + full) r full ≤ adjust q start (start + full) r full := by
  simp only [adjust]
  split_ifs <;> push_cast at * <;> omega

theorem remap_mono (ms : List Match) (p q : Int) (h : p ≤ q) : remap ms p ≤ remap ms q := by
  induction ms with
  | nil => exact h
  | cons m ms ih =>
    rw [remap_cons, remap_cons]
    exact adjust_mono _ _ ih m.index m.full.length _

/-- C17: the cursor remap of `processElement` is monotone: for every buffer and
every two offsets `p ≤ q`, the remapped offsets satisfy `p' ≤ q'`, also after the
clamp; each offset is remapped without regard to the other one, so a selection
passed with start > end comes back with start' ≥ end'. -/
theorem remap_monotone (buffer : Str) (p q : Int) (h : p ≤ q) :
    (patchLoop buffer p q).newCursorPos ≤ (patchLoop buffer p q).newSelectionEnd
      ∧ max 0 (patchLoop buffer p q).newCursorPos ≤ max 0 (patchLoop buffer p q).newSelectionEnd
      ∧ (patchLoop buffer q p).newSelectionEnd ≤ (patchLoop buffer q p).newCursorPos
      ∧ (∀ s e : Int, (patchLoop buffer p e).newCursorPos = (patchLoop buffer p q).newCursorPos
          ∧ (patchLoop buffer s q).newSelectionEnd = (patchLoop buffer p q).newSelectionEnd) := by
  have hc : ∀ s e : Int, (patchLoop buffer s e).newCursorPos = remap (matchAll buffer) s := by
    intro s e; rw [patchLoop_eq, patchAll_cursor]
  have hd : ∀ s e : Int, (patchLoop buffer s e).newSelectionEnd = remap (matchAll buffer) e := by
    intro s e; rw [patchLoop_eq, patchAll_selectionEnd]
  have hm := remap_mono (matchAll buffer) p q h
  refine ⟨?_, ?_, ?_, ?_⟩
  · rw [hc, hd]; exact hm
  · rw [hc, hd]; exact max_le_max (le_refl _) hm
  · rw [hc, hd]; exact hm
  · intro s e
    exact ⟨by rw [hc, hc], by rw [hd, hd]⟩

/-- C17, witness: in `a =(2+3*4) b =((2+3)*4) c` the offsets `5 ≤ 20`, both inside a
match, become `4 ≤ 9`; passed as the selection `(20, 5)` they become `(9, 4)`. -/
theorem remap_monotone_witness :
    patchLoop "a =(2+3*4) b =((2+3)*4) c".toList 5 20
        = { newValue := "a 14 b 20 c".toList, newCursorPos := 4, newSelectionEnd := 9 }
      ∧ patchLoop "a =(2+3*4) b =((2+3)*4) c".toList 20 5
        = { newValue := "a 14 b 20 c".toList, newCursorPos := 9, newSelectionEnd := 4 }
      ∧ (patchLoop "a =(2+3*4) b =((2+3)*4) c".toList 5 20).newCursorPos
          ≤ (patchLoop "a =(2+3*4) b =((2+3)*4) c".toList 5 20).newSelectionEnd :=
  ⟨by decide!, by decide!,
    (remap_monotone "a =(2+3*4) b =((2+3)*4) c".toList 5 20 (by decide)).1⟩

/-! ## The sanitizer (C13, C18) -/

theorem hasAdjacentOps_cons_cons (c d : Char) (t : Str) :
    hasAdjacentOps (c :: d :: t) = ((isOp c && isOp d) || hasAdjacentOps (d :: t)) := rfl

theorem collapseOperators_cons_cons (c d : Char) (t : Str) :
    collapseOperators (c :: d :: t)
      = if isOp c = true ∧ isOp d = true then collapseOperators (d :: t)
        else c :: collapseOperators (d :: t) := rfl

theorem collapseOperators_head (c : Char) (t : Str) :
    ∃ d u, collapseOperators (c :: t) = d :: u ∧ (isOp c = false → d = c)
      ∧ (isOp d = true → isOp c = true) := by
  induction t generalizing c with
  | nil => exact ⟨c, [], rfl, fun _ => rfl, fun h => h⟩
  | cons d t ih =>
    rw [collapseOperators_cons_cons]
    split_ifs with h
    · obtain ⟨x, u, e1, _, e3⟩ := ih d
      exact ⟨x, u, e1, ⟨fun hc => absurd (h.1.symm.trans hc) (by decide), fun _ => h.1⟩⟩
    · exact ⟨c, _, rfl, fun _ => rfl, fun h => h⟩

theorem collapseOperators_no_adjacent (s : Str) : hasAdjacentOps (collapseOperators s) = false := by
  induction s with
  | nil => rfl
  | cons c t ih =>
    cases t with
    | nil => rfl
    | cons d t2 =>
      rw [collapseOperators_cons_cons]
      split_ifs with h
      · exact ih
      · obtain ⟨x, u, e1, e2, e3⟩ := collapseOperators_head d t2
        rw [e1] at ih ⊢
        rw [hasAdjacentOps_cons_cons, ih, Bool.or_false, Bool.eq_false_iff]
        intro hx
        simp only [Bool.and_eq_true] at hx
        exact h ⟨hx.1, e3 hx.2⟩

theorem collapseOperators_id (s : Str) (h : hasAdjacentOps s = false) :
    collapseOperators s = s := by
  induction s with
  | nil => rfl
  | cons c t ih =>
    cases t with
    | nil => rfl
    | cons d t2 =>
      rw [hasAdjacentOps_cons_cons, Bool.or_eq_false_iff] at h
      rw [collapseOperators_cons_cons, if_neg (by
        intro hx
        have := h.1
        simp [hx.1, hx.2] at this), ih h.2]

theorem collapseOperators_append (a b : Str)
    (h : ∀ x y, a.getLast? = some x → b.head? = some y → ¬ (isOp x = true ∧ isOp y = true)) :
    collapseOperators (a ++ b) = collapseOperators a ++ collapseOperators b := by
  induction a with
  | nil => rfl
  | cons c t ih =>
    cases t with
    | nil =>
      cases b with
      | nil => simp [collapseOperators]
      | cons y b2 =>
        have := h c y rfl rfl
        simp only [List.singleton_append, collapseOperators_cons_cons, if_neg this]
        rfl
    | cons d t2 =>
      have ih2 := ih (by
        intro x y hx hy
        exact h x y (by rw [List.getLast?_cons_cons]; exact hx) hy)
      simp only [List.cons_append] at ih2 ⊢
      rw [collapseOperators_cons_cons, collapseOperators_cons_cons, ih2]
      split_ifs <;> rfl

theorem collapseOperators_run (run : Str) (hne : run ≠ []) (hops : ∀ c ∈ run, isOp c = true) :
    collapseOperators run = [run.getLast hne] := by
  induction run with
  | nil => exact absurd rfl hne
  | cons c t ih =>
    cases t with
    | nil => rfl
    | cons d t2 =>
      have hc := hops c (List.mem_cons_self _ _)
      have hd := hops d (List.mem_cons_of_mem _ (List.mem_cons_self _ _))
      rw [collapseOperators_cons_cons, if_pos ⟨hc, hd⟩,
        ih (by simp) (fun x hx => hops x (List.mem_cons_of_mem _ hx))]
      simp

/-- C13: for every string `s`, `sanitizeInput(s)` holds no two adjacent characters
from `{+,-,*,/}`.  In the text after character filtering and percent rewriting,
every maximal run of operator characters (`pre` does not end with one, `post`
does not start with one) is replaced by the last character of the run, which for
a run of one character means it is kept, and the collapsing acts on the text
before and after the run independently; a text without adjacent operator
characters is left as it is. -/
theorem sanitize_collapses_operator_runs (s : Str) :
    hasAdjacentOps (sanitizeInput s) = false
      ∧ sanitizeInput s = collapseOperators (percentToDivision (s.filter isAllowed))
      ∧ (∀ (pre run post : Str) (hne : run ≠ []), (∀ c ∈ run, isOp c = true) →
          (∀ x, pre.getLast? = some x → isOp x = false) →
          (∀ y, post.head? = some y → isOp y = false) →
          collapseOperators (pre ++ run ++ post)
            = collapseOperators pre ++ [run.getLast hne] ++ collapseOperators post)
      ∧ (∀ t : Str, hasAdjacentOps t = false → collapseOperators t = t) := by
  refine ⟨collapseOperators_no_adjacent _, rfl, ?_, collapseOperators_id⟩
  intro pre run post hne hops hpre hpost
  rw [List.append_assoc, collapseOperators_append pre (run ++ post), collapseOperators_append run post,
    collapseOperators_run run hne hops, List.append_assoc]
  · intro x y _ hy hxy
    have := hpost y hy
    rw [this] at hxy
    exact Bool.false_ne_true hxy.2
  · intro x y hx _ hxy
    have := hpre x hx
    rw [this] at hxy
    exact Bool.false_ne_true hxy.1

/-- C13, witnesses: `5+-3` becomes `5-3`, which evaluates to `2`; `5--3` becomes
`5-3`; in `1*+2` the run `*+` becomes `+`. -/
theorem sanitize_collapses_operator_runs_witness :
    sanitizeInput "5+-3".toList = "5-3".toList
      ∧ evaluateExpression "5+-3".toList = "2".toList
      ∧ sanitizeInput "5--3".toList = "5-3".toList
      ∧ sanitizeInput "1*+2".toList = "1+2".toList
      ∧ collapseOperators ("5".toList ++ "+-".toList ++ "3".toList)
          = collapseOperators "5".toList ++ ['-'] ++ collapseOperators "3".toList :=
  ⟨by decide, by decide!, by decide, by decide,
    (sanitize_collapses_operator_runs []).2.2.1 "5".toList "+-".toList "3".toList (by decide)
      (by decide) (by decide) (by decide)⟩
theorem percentToDivision_cons_cons (c d : Char) (t : Str) :
    percentToDivision (c :: d :: t)
      = if isDigit c = true ∧ d = '%' then c :: '/' :: '1' :: '0' :: '0' :: percentToDivision t
        else c :: percentToDivision (d :: t) := rfl

theorem isDigit_percent : isDigit '%' = false := by decide

theorem percentAfterDigit_eq (n : Nat) : ∀ (s : Str) (prev : Option Char), s.length ≤ n →
    ¬ ((prev.map isDigit).getD false = true ∧ s.head? = some '%') →
      percentAfterDigit prev s = percentToDivision s := by
  induction n with
  | zero =>
    intro s prev h _
    have : s = [] := List.length_eq_zero.mp (by omega)
    subst this
    rfl
  | succ n ih =>
    intro s prev hlen hprev
    cases s with
    | nil => rfl
    | cons c t =>
      have hc : ¬ (c = '%' ∧ (prev.map isDigit).getD false = true) := by
        intro hx
        exact hprev ⟨hx.2, by rw [hx.1]; rfl⟩
      simp only [percentAfterDigit, if_neg hc]
      cases t with
      | nil => rfl
      | cons d t2 =>
        rw [percentToDivision_cons_cons]
        simp only [List.length_cons] at hlen
        by_cases hm : isDigit c = true ∧ d = '%'
        · rw [if_pos hm]
          have h1 : d = '%' ∧ ((some c).map isDigit).getD false = true := ⟨hm.2, by simp [hm.1]⟩
          simp only [percentAfterDigit, if_pos h1]
          rw [ih t2 (some d) (by omega) (by
            intro hx
            rw [hm.2] at hx
            simp [isDigit_percent] at hx)]
        · rw [if_neg hm]
          rw [ih (d :: t2) (some c) (by simp only [List.length_cons]; omega) (by
            intro hx
            simp only [Option.map_some', Option.getD_some, List.head?_cons,
              Option.some.injEq] at hx
            exact hm hx)]

theorem percentToDivision_head (c : Char) (t : Str) :
    ∃ u, percentToDivision (c :: t) = c :: u := by
  cases t with
  | nil => exact ⟨[], rfl⟩
  | cons d t2 =>
    rw [percentToDivision_cons_cons]
    split_ifs
    · exact ⟨_, rfl⟩
    · exact ⟨_, rfl⟩

theorem isDigit_not_op {c : Char} (h : isDigit c = true) : isOp c = false := by
  rw [Bool.eq_false_iff]
  intro ho
  simp only [isOp, Bool.or_eq_true, beq_iff_eq] at ho
  rcases ho with ((ho | ho) | ho) | ho <;> subst ho <;> exact absurd h (by decide)

theorem percentToDivision_no_adjacent (n : Nat) : ∀ s : Str, s.length ≤ n →
    hasAdjacentOps s = false → hasAdjacentOps (percentToDivision s) = false := by
  induction n with
  | zero =>
    intro s h _
    have : s = [] := List.length_eq_zero.mp (by omega)
    subst this
    rfl
  | succ n ih =>
    intro s hlen hadj
    cases s with
    | nil => rfl
    | cons c t =>
      cases t with
      | nil => rfl
      | cons d t2 =>
        simp only [List.length_cons] at hlen
        rw [hasAdjacentOps_cons_cons, Bool.or_eq_false_iff] at hadj
        rw [percentToDivision_cons_cons]
        split_ifs with hm
        · have hrest : hasAdjacentOps t2 = false := by
            cases t2 with
            | nil => rfl
            | cons x t3 =>
              have := hadj.2
              rw [hasAdjacentOps_cons_cons, Bool.or_eq_false_iff] at this
              exact this.2
          have hz := ih t2 (by omega) hrest
          have hcd : isOp c = false := isDigit_not_op hm.1
          have h1 : isOp '1' = false := by decide
          have h0 : isOp '0' = false := by decide
          cases hp : percentToDivision t2 with
          | nil =>
            rw [hasAdjacentOps_cons_cons, hcd]
            decide
          | cons y u =>
            rw [hp] at hz
            simp only [hasAdjacentOps_cons_cons, hz, hcd, h1, h0, Bool.false_and, Bool.and_false,
              Bool.false_or, Bool.or_false]
        · obtain ⟨u, hu⟩ := percentToDivision_head d t2
          have hz := ih (d :: t2) (by simp only [List.length_cons]; omega) hadj.2
          rw [hu] at hz ⊢
          rw [hasAdjacentOps_cons_cons, hz, hadj.1]
          rfl

/-- C18: for every string `s` made only of allowed characters and holding no two
adjacent operator characters from `{+,-,*,/}`, `sanitizeInput(s)` is `s` with
every `%` that directly follows a digit replaced by `/100` and every other
character, every other `%` included, left in place. -/
theorem sanitize_rewrites_percent (s : Str) (hallowed : ∀ c ∈ s, isAllowed c = true)
    (hadj : hasAdjacentOps s = false) :
    sanitizeInput s = percentAfterDigit none s := by
  have hf : s.filter isAllowed = s := List.filter_eq_self.mpr hallowed
  simp only [sanitizeInput, hf]
  rw [collapseOperators_id _ (percentToDivision_no_adjacent _ s (le_refl _) hadj)]
  exact (percentAfterDigit_eq _ s none (le_refl _) (by simp)).symm

/-- C18, witnesses: `50%` becomes `50/100`; in `5%3` the `%` becomes `/100` and the
digits on its right follow it, `5/1003`; a `%` that follows no digit stays. -/
theorem sanitize_rewrites_percent_witness :
    sanitizeInput "50%".toList = "50/100".toList
      ∧ sanitizeInput "5%3".toList = "5/1003".toList
      ∧ sanitizeInput "(5)%%2".toList = "(5)%%2".toList
      ∧ sanitizeInput "5%3".toList = percentAfterDigit none "5%3".toList :=
  ⟨by decide, by decide, by decide,
    sanitize_rewrites_percent "5%3".toList (by decide) (by decide)⟩

/-! ## Tokens of the postfix sequence (C15, C19) -/

theorem popToParen_spec (stack : List Token) : ∀ output : List Token,
    ∃ pre rest, stack = pre ++ rest ∧ popToParen output stack = (output ++ pre, rest)
      ∧ (∀ t ∈ pre, t ≠ Token.operator '(')
      ∧ (rest = [] ∨ ∃ r, rest = Token.operator '(' :: r) := by
  induction stack with
  | nil => intro output; exact ⟨[], [], rfl, by simp [popToParen], by simp, Or.inl rfl⟩
  | cons t stack ih =>
    intro output
    by_cases ht : t = Token.operator '('
    · exact ⟨[], t :: stack, rfl, by simp [popToParen, ht], by simp, Or.inr ⟨stack, by rw [ht]⟩⟩
    · obtain ⟨pre, rest, e1, e2, e3, e4⟩ := ih (output ++ [t])
      refine ⟨t :: pre, rest, by rw [e1]; rfl, by simp [popToParen, ht, e2], ?_, e4⟩
      intro x hx
      rcases List.mem_cons.mp hx with h | h
      · rw [h]; exact ht
      · exact e3 x h

theorem popWhileGE_spec (tok : Token) (stack : List Token) : ∀ output : List Token,
    ∃ pre rest, stack = pre ++ rest ∧ popWhileGE tok output stack = (output ++ pre, rest)
      ∧ (∀ t ∈ pre, precGE t tok = true) := by
  induction stack with
  | nil => intro output; exact ⟨[], [], rfl, by simp [popWhileGE], by simp⟩
  | cons t stack ih =>
    intro output
    by_cases ht : precGE t tok = true
    · obtain ⟨pre, rest, e1, e2, e3⟩ := ih (output ++ [t])
      refine ⟨t :: pre, rest, by rw [e1]; rfl, by simp [popWhileGE, ht, e2], ?_⟩
      intro x hx
      rcases List.mem_cons.mp hx with h | h
      · rw [h]; exact ht
      · exact e3 x h
    · exact ⟨[], t :: stack, rfl, by simp [popWhileGE, ht], by simp⟩

theorem precGE_not_paren {t tok : Token} (h : precGE t tok = true) :
    t.isParen = false ∧ t.isNumber = false := by
  cases t with
  | number v => simp [precGE, Token.prec] at h
  | operator c =>
    cases hp : precedence c with
    | none => simp [precGE, Token.prec, hp] at h
    | some p =>
      have hc := (precedence_some_cases hp).1
      refine ⟨?_, rfl⟩
      rcases hc with h1 | h1 | h1 | h1 | h1 <;> subst h1 <;> decide

theorem shunt_clean (st : List Token × List Token) (token : Token) (h : CleanState st) :
    CleanState (shunt st token) := by
  obtain ⟨out, stk⟩ := st
  obtain ⟨h1, h2⟩ := h
  cases token with
  | number v =>
    refine ⟨?_, h2⟩
    intro t ht
    simp only [shunt, List.mem_append, List.mem_singleton] at ht
    rcases ht with ht | ht
    · exact h1 t ht
    · rw [ht]; rfl
  | operator c =>
    simp only [shunt]
    split_ifs with hc1 hc2
    · refine ⟨h1, ?_⟩
      intro t ht
      rcases List.mem_cons.mp ht with ht | ht
      · rw [ht, hc1]; exact ⟨by decide, rfl⟩
      · exact h2 t ht
    · obtain ⟨pre, rest, e1, e2, e3, _⟩ := popToParen_spec stk out
      rw [e2]
      simp only at e1 ⊢
      subst e1
      constructor
      · intro t ht
        rcases List.mem_append.mp ht with ht | ht
        · exact h1 t ht
        · have hx := h2 t (List.mem_append_left _ ht)
          have hy := e3 t ht
          simp only [Token.isParen, Token.isOpen, Token.isClose, Bool.or_eq_false_iff,
            decide_eq_false_iff_not] at hx ⊢
          exact ⟨hy, hx.1⟩
      · intro t ht
        exact h2 t (List.mem_append_right _ (List.mem_of_mem_tail ht))
    · obtain ⟨pre, rest, e1, e2, e3⟩ := popWhileGE_spec (Token.operator c) stk out
      rw [e2]
      simp only at e1 ⊢
      subst e1
      constructor
      · intro t ht
        rcases List.mem_append.mp ht with ht | ht
        · exact h1 t ht
        · exact (precGE_not_paren (e3 t ht)).1
      · intro t ht
        rcases List.mem_cons.mp ht with ht | ht
        · rw [ht]
          exact ⟨by simp [Token.isClose, hc2], rfl⟩
        · exact h2 t (List.mem_append_right _ ht)

theorem foldl_shunt_clean (tokens : List Token) : ∀ st, CleanState st →
    CleanState (tokens.foldl shunt st) := by
  induction tokens with
  | nil => intro st h; exact h
  | cons t ts ih => intro st h; exact ih _ (shunt_clean st t h)
theorem kept_of_no_open (pre : List Token) (h : ∀ t ∈ pre, t ≠ Token.operator '(') :
    kept pre = pre ∧ opens pre = 0 := by
  constructor
  · apply List.filter_eq_self.mpr
    intro t ht
    simp [Token.isOpen, h t ht]
  · exact List.count_eq_zero.mpr (fun hm => h _ hm rfl)

theorem kept_append (a b : List Token) : kept (a ++ b) = kept a ++ kept b := by
  simp [kept]

theorem opens_append (a b : List Token) : opens (a ++ b) = opens a + opens b := by
  simp [opens]

theorem filter_number_stack (pre : List Token) (h : ∀ t ∈ pre, t.isNumber = false) :
    pre.filter Token.isNumber = [] := by
  apply List.filter_eq_nil_iff.mpr
  intro t ht
  simp [h t ht]

theorem shunt_balanced (tokens : List Token) : ∀ st : List Token × List Token,
    CleanState st → balancedFrom (opens st.2) tokens = true →
      opens (tokens.foldl shunt st).2 = 0
        ∧ (∀ x, List.count x (tokens.foldl shunt st).1 + List.count x (kept (tokens.foldl shunt st).2)
            = List.count x st.1 + List.count x (kept st.2)
              + List.count x (tokens.filter (fun t => !t.isParen)))
        ∧ (tokens.foldl shunt st).1.filter Token.isNumber
            = st.1.filter Token.isNumber ++ tokens.filter Token.isNumber := by
  induction tokens with
  | nil =>
    intro st _ hb
    simp only [balancedFrom, decide_eq_true_eq] at hb
    exact ⟨hb, by simp, by simp⟩
  | cons tok ts ih =>
    intro st hclean hb
    obtain ⟨out, stk⟩ := st
    have hclean2 := shunt_clean (out, stk) tok hclean
    simp only [List.foldl_cons]
    cases tok with
    | number v =>
      have hs : shunt (out, stk) (Token.number v) = (out ++ [Token.number v], stk) := rfl
      rw [hs] at hclean2 ⊢
      have hb2 : balancedFrom (opens stk) ts = true := by
        simpa [balancedFrom] using hb
      obtain ⟨i1, i2, i3⟩ := ih _ hclean2 hb2
      refine ⟨i1, ?_, ?_⟩
      · intro x
        rw [i2 x]
        simp [List.filter_cons, Token.isParen, Token.isOpen, Token.isClose, List.count_cons]
        omega
      · rw [i3]
        simp [List.filter_cons, Token.isNumber]
    | operator c =>
      by_cases hc1 : c = '('
      · subst hc1
        have hs : shunt (out, stk) (Token.operator '(')
            = (out, Token.operator '(' :: stk) := by simp [shunt]
        rw [hs] at hclean2 ⊢
        have hb2 : balancedFrom (opens (Token.operator '(' :: stk)) ts = true := by
          have : opens (Token.operator '(' :: stk) = opens stk + 1 := by simp [opens]
          rw [this]
          simpa [balancedFrom] using hb
        obtain ⟨i1, i2, i3⟩ := ih _ hclean2 hb2
        refine ⟨i1, ?_, ?_⟩
        · intro x
          rw [i2 x]
          simp [kept, List.filter_cons, Token.isParen, Token.isOpen]
        · rw [i3]
          simp [List.filter_cons, Token.isNumber]
      · by_cases hc2 : c = ')'
        · subst hc2
          obtain ⟨pre, rest, e1, e2, e3, e4⟩ := popToParen_spec stk out
          have hs : shunt (out, stk) (Token.operator ')') = (out ++ pre, rest.tail) := by
            simp [shunt, e2]
          rw [hs] at hclean2 ⊢
          have hbb : opens stk ≠ 0 ∧ balancedFrom (opens stk - 1) ts = true := by
            simpa [balancedFrom] using hb
          obtain ⟨hk, ho⟩ := kept_of_no_open pre e3
          have hrest : ∃ r, rest = Token.operator '(' :: r := by
            rcases e4 with h | h
            · exfalso
              apply hbb.1
              rw [e1, h, List.append_nil]
              exact ho
            · exact h
          obtain ⟨r, hr⟩ := hrest
          subst hr
          simp only [List.tail_cons] at hclean2 ⊢
          have hop : opens stk - 1 = opens r := by
            rw [e1, opens_append, ho]
            simp [opens]
          rw [hop] at hbb
          obtain ⟨i1, i2, i3⟩ := ih _ hclean2 hbb.2
          have hnum : pre.filter Token.isNumber = [] :=
            filter_number_stack pre (fun t ht => (hclean.2 t (by
              show t ∈ stk
              rw [e1]; exact List.mem_append_left _ ht)).2)
          refine ⟨i1, ?_, ?_⟩
          · intro x
            rw [i2 x, e1, kept_append, hk]
            simp [kept, List.filter_cons, Token.isParen, Token.isOpen, Token.isClose,
              List.count_append]
            omega
          · rw [i3]
            simp [List.filter_cons, Token.isNumber, hnum]
        · obtain ⟨pre, rest, e1, e2, e3⟩ := popWhileGE_spec (Token.operator c) stk out
          have hs : shunt (out, stk) (Token.operator c)
              = (out ++ pre, Token.operator c :: rest) := by
            simp [shunt, hc1, hc2, e2]
          rw [hs] at hclean2 ⊢
          have hpre : ∀ t ∈ pre, t ≠ Token.operator '(' := by
            intro t ht heq
            have := (precGE_not_paren (e3 t ht)).1
            rw [heq] at this
            exact absurd this (by decide)
          obtain ⟨hk, ho⟩ := kept_of_no_open pre hpre
          have hne1 : Token.operator c ≠ Token.operator '(' := by
            intro h; exact hc1 (Token.operator.inj h)
          have hne2 : Token.operator c ≠ Token.operator ')' := by
            intro h; exact hc2 (Token.operator.inj h)
          have hop : opens (Token.operator c :: rest) = opens stk := by
            rw [e1, opens_append, ho]
            simp [opens, List.count_cons, hne1]
          have hb2 : balancedFrom (opens (Token.operator c :: rest)) ts = true := by
            rw [hop]
            simpa [balancedFrom, hne1, hne2] using hb
          obtain ⟨i1, i2, i3⟩ := ih _ hclean2 hb2
          have hnum : pre.filter Token.isNumber = [] :=
            filter_number_stack pre (fun t ht => (precGE_not_paren (e3 t ht)).2)
          refine ⟨i1, ?_, ?_⟩
          · intro x
            rw [i2 x, e1, kept_append, hk]
            simp [kept, List.filter_cons, Token.isParen, Token.isOpen, Token.isClose, hne1, hne2,
              List.count_append, List.count_cons]
            omega
          · rw [i3]
            simp [List.filter_cons, Token.isNumber, hnum]
theorem cleanState_nil : CleanState ([], []) := by
  constructor
  · intro t ht; cases ht
  · intro t ht; cases ht

theorem no_paren_of_balanced (tokens : List Token) (hb : balanced tokens = true) :
    (∀ t ∈ infixToPostfix tokens, t.isParen = false)
      ∧ (∀ x, List.count x ( infixToPostfix tokens)
          = List.count x (tokens.filter (fun t => !t.isParen)))
      ∧ ( infixToPostfix tokens).filter Token.isNumber = tokens.filter Token.isNumber := by
  have hclean := foldl_shunt_clean tokens ([], []) cleanState_nil
  obtain ⟨h1, h2, h3⟩ := shunt_balanced tokens ([], []) cleanState_nil hb
  have hno : ∀ t ∈ (tokens.foldl shunt ([], [])).2, t ≠ Token.operator '(' := by
    intro t ht heq
    have := List.count_eq_zero.mp h1
    exact this (heq ▸ ht)
  obtain ⟨hk, _⟩ := kept_of_no_open _ hno
  have hnum : (tokens.foldl shunt ([], [])).2.filter Token.isNumber = [] :=
    filter_number_stack _ (fun t ht => (hclean.2 t ht).2)
  refine ⟨?_, ?_, ?_⟩
  · intro t ht
    rcases List.mem_append.mp ht with h | h
    · exact hclean.1 t h
    · have hx := (hclean.2 t h).1
      have hy := hno t h
      simp only [Token.isParen, Token.isOpen, Token.isClose, Bool.or_eq_false_iff,
        decide_eq_false_iff_not] at hx ⊢
      exact ⟨hy, hx⟩
  · intro x
    have := h2 x
    rw [hk] at this
    simp only [infixToPostfix, List.count_append]
    simpa [kept] using this
  · simp only [infixToPostfix, List.filter_append, hnum, h3]
    simp

/-- C19: for every token sequence whose `(` and `)` tokens are balanced, the output
of `infixToPostfix` holds no parenthesis token, holds exactly the number and
operator tokens of the input (the same multiset), and keeps the number tokens in
their input order.  (No condition on the operator symbols is needed.) -/
theorem postfix_tokens_of_balanced (tokens : List Token) (hb : balanced tokens = true) :
    (∀ t ∈ infixToPostfix tokens, t.isParen = false)
      ∧ ( infixToPostfix tokens).Perm (tokens.filter (fun t => !t.isParen))
      ∧ ( infixToPostfix tokens).filter Token.isNumber = tokens.filter Token.isNumber := by
  obtain ⟨h1, h2, h3⟩ := no_paren_of_balanced tokens hb
  exact ⟨h1, List.perm_iff_count.mpr h2, h3⟩

/-- C19, witness: the tokens of `(2+3)*4` are balanced; the postfix sequence is
`2 3 + 4 *`. -/
theorem postfix_tokens_of_balanced_witness :
    balanced (tokenize "(2+3)*4".toList) = true
      ∧ infixToPostfix (tokenize "(2+3)*4".toList)
        = [Token.number (parseFloat ['2'] []), Token.number (parseFloat ['3'] []),
            Token.operator '+', Token.number (parseFloat ['4'] []), Token.operator '*']
      ∧ ( infixToPostfix (tokenize "(2+3)*4".toList)).Perm
          ((tokenize "(2+3)*4".toList).filter (fun t => !t.isParen)) :=
  ⟨by decide, by decide,
    (postfix_tokens_of_balanced (tokenize "(2+3)*4".toList) (by decide)).2.1⟩

/-- C15, as the code has it: for every token sequence, the result of
`infixToPostfix` holds no `)` token, and the output built while the tokens are
read holds no parenthesis token; a `(` token is in the result only when it is
left on the operator stack at the end, the stack being appended to the output.
When the parentheses of the input are balanced, the result holds no parenthesis
token. -/
theorem postfix_has_no_close_paren (tokens : List Token) :
    (∀ t ∈ infixToPostfix tokens, t.isClose = false)
      ∧ (∀ t ∈ (tokens.foldl shunt ([], [])).1, t.isParen = false)
      ∧ (∀ t ∈ infixToPostfix tokens, t.isOpen = true →
          t ∈ (tokens.foldl shunt ([], [])).2)
      ∧ (balanced tokens = true → ∀ t ∈ infixToPostfix tokens, t.isParen = false) := by
  have hclean := foldl_shunt_clean tokens ([], []) cleanState_nil
  have hout : ∀ t ∈ (tokens.foldl shunt ([], [])).1, t.isOpen = false ∧ t.isClose = false := by
    intro t ht
    have := hclean.1 t ht
    simpa [Token.isParen] using this
  refine ⟨?_, hclean.1, ?_, fun hb => (no_paren_of_balanced tokens hb).1⟩
  · intro t ht
    rcases List.mem_append.mp ht with h | h
    · exact (hout t h).2
    · exact (hclean.2 t h).1
  · intro t ht ho
    rcases List.mem_append.mp ht with h | h
    · rw [(hout t h).1] at ho
      exact absurd ho (by decide)
    · exact h

/-- C15, counterexample: the tokens of `(2` have an unmatched `(`; the postfix
sequence is `2 (`, which holds a `(` token. -/
theorem postfix_open_paren_counterexample :
    tokenize "(2".toList = [Token.operator '(', Token.number (parseFloat ['2'] [])]
      ∧ infixToPostfix (tokenize "(2".toList)
        = [Token.number (parseFloat ['2'] []), Token.operator '(']
      ∧ Token.operator '(' ∈ infixToPostfix (tokenize "(2".toList) :=
  ⟨by decide, by decide, by decide⟩

/-! ## The scanner and the depth-counter scan (C11) -/

theorem depthScanClose_skip (run x : Str) (h : ∀ c ∈ run, notParen c = true) (depth : Nat) :
    depthScanClose (some 2) depth (run ++ x)
      = (depthScanClose (some 2) depth x).map (fun r => (run ++ r.1, r.2)) := by
  induction run with
  | nil => simp
  | cons c t ih =>
    have hc := h c (List.mem_cons_self _ _)
    simp only [notParen, Bool.and_eq_true, bne_iff_ne, ne_eq] at hc
    have ht := ih (fun y hy => h y (List.mem_cons_of_mem _ hy))
    have hstep : depthScanClose (some 2) depth (c :: (t ++ x))
        = (depthScanClose (some 2) depth (t ++ x)).map (fun r => (c :: r.1, r.2)) := by
      simp only [depthScanClose, if_neg hc.1, if_neg hc.2]
    rw [List.cons_append, hstep, ht, Option.map_map]
    rfl

theorem dropWhile_head_paren (t : Str) (d : Char) (rest : Str)
    (h : t.dropWhile notParen = d :: rest) : d = '(' ∨ d = ')' := by
  have := List.head_dropWhile_not notParen t (by rw [h]; simp)
  simp only [h, List.head_cons] at this
  by_cases h1 : d = '('
  · exact Or.inl h1
  · by_cases h2 : d = ')'
    · exact Or.inr h2
    · simp [notParen, h1, h2] at this

theorem bodyThenClose_eq_depthScan (fuel : Nat) : ∀ t : Str, t.length < fuel →
    bodyThenClose fuel t = depthScanClose (some 2) 1 t := by
  induction fuel with
  | zero => intro t h; omega
  | succ n ih =>
    intro t hlen
    cases t with
    | nil => simp [bodyThenClose, atom, closeParen, depthScanClose]
    | cons c t1 =>
      simp only [List.length_cons] at hlen
      by_cases h1 : c = '('
      · subst h1
        have hsp := List.takeWhile_append_dropWhile notParen t1
        have hrun : ∀ y ∈ t1.takeWhile notParen, notParen y = true :=
          fun y hy => List.mem_takeWhile_imp hy
        have hd : depthScanClose (some 2) 1 ('(' :: t1)
            = (depthScanClose (some 2) 2 t1).map (fun r => ('(' :: r.1, r.2)) := by
          simp [depthScanClose]
        rw [hd]
        cases hr : t1.dropWhile notParen with
        | nil =>
          have ha : atom ('(' :: t1) = none := by
            simp [atom, notParen, parenGroup, List.span_eq_take_drop, hr]
          rw [hr, List.append_nil] at hsp
          have hrun2 : ∀ y ∈ t1, notParen y = true := by
            intro y hy
            rw [← hsp] at hy
            exact hrun y hy
          have := depthScanClose_skip t1 [] hrun2 2
          rw [List.append_nil] at this
          simp [bodyThenClose, ha, closeParen, this, depthScanClose]
        | cons d rest =>
          rw [hr] at hsp
          rcases dropWhile_head_paren t1 d rest hr with hd2 | hd2
          · subst hd2
            have ha : atom ('(' :: t1) = none := by
              simp [atom, notParen, parenGroup, List.span_eq_take_drop, hr]
            have := depthScanClose_skip (t1.takeWhile notParen) ('(' :: rest) hrun 2
            rw [hsp] at this
            simp [bodyThenClose, ha, closeParen, this, depthScanClose]
          · subst hd2
            have ha : atom ('(' :: t1)
                = some ('(' :: (t1.takeWhile notParen ++ [')']), rest) := by
              simp [atom, notParen, parenGroup, List.span_eq_take_drop, hr]
            have hl : rest.length < n := by
              have := congrArg List.length hsp
              simp only [List.length_append, List.length_cons] at this
              omega
            have := depthScanClose_skip (t1.takeWhile notParen) (')' :: rest) hrun 2
            rw [hsp] at this
            rw [this]
            simp only [bodyThenClose, ha, ih rest hl]
            cases hq : depthScanClose (some 2) 1 rest with
            | none => simp [closeParen, depthScanClose, hq]
            | some pr => simp [depthScanClose, hq]
      · by_cases h2 : c = ')'
        · subst h2
          have ha : atom (')' :: t1) = none := by simp [atom, notParen, parenGroup]
          simp [bodyThenClose, ha, closeParen, depthScanClose]
        · have ha : atom (c :: t1) = some ([c], t1) := by simp [atom, notParen, h1, h2]
          simp only [bodyThenClose, ha, ih t1 (by omega), depthScanClose, if_neg h1, if_neg h2]
          cases hq : depthScanClose (some 2) 1 t1 with
          | none => simp [closeParen, h2]
          | some pr => simp

theorem execAt_eq_depthScanAt (s : Str) : execAt s = depthScanAt (some 2) s := by
  match s with
  | [] => rfl
  | [_] => rfl
  | c :: d :: t =>
    simp only [execAt, depthScanAt]
    split_ifs
    · exact bodyThenClose_eq_depthScan _ t (Nat.lt_succ_self _)
    · rfl

theorem matchAllFrom_eq_depthScanFrom (fuel : Nat) : ∀ (i : Nat) (s : Str),
    matchAllFrom fuel i s = depthScanFrom (some 2) fuel i s := by
  induction fuel with
  | zero => intro i s; rfl
  | succ n ih =>
    intro i s
    simp only [matchAllFrom, depthScanFrom, execAt_eq_depthScanAt]
    cases depthScanAt (some 2) s with
    | some pr => simp only [ih]
    | none =>
      cases s with
      | nil => rfl
      | cons c t => simp only [ih]

/-- C11, as the code has it: for every buffer, the matches of the scanner are
exactly those of the depth-counter scan whose counter may not exceed 2:
starting at each occurrence of `=(` with a counter of 1, `(` increments and `)`
decrements it, the match ends at the `)` that brings it to 0, and the occurrence
gives no match when a `(` would raise the counter above 2 or the text ends
first; scanning resumes just after a match. -/
theorem scanner_is_bounded_depth_scan (buffer : Str) :
    matchAll buffer = depthScan (some 2) buffer :=
  matchAllFrom_eq_depthScanFrom _ 0 buffer

/-- C11, counterexample: in `=((1+(2)))` the depth-counter scan of the
specification finds the match `[0, 10)` with payload `(1+(2))`; the scanner of
the source finds no match, the pattern allowing no parenthesis inside a
parenthesised group. -/
theorem scanner_depth_counterexample :
    matchAll "=((1+(2)))".toList = []
      ∧ depthScan none "=((1+(2)))".toList
        = [{ index := 0, full := "=((1+(2)))".toList, expr := "(1+(2))".toList }]
      ∧ matchAll "=((1+(2)))".toList ≠ depthScan none "=((1+(2)))".toList :=
  ⟨by decide, by decide, by decide⟩

/-! ## Formatting of finite numbers (C14) -/

theorem bitLenAux_bounds (fuel : Nat) : ∀ n : Nat, n ≤ fuel →
    n < 2 ^ bitLenAux fuel n ∧ (n ≠ 0 → 2 ^ (bitLenAux fuel n - 1) ≤ n) := by
  induction fuel with
  | zero =>
    intro n h
    have : n = 0 := by omega
    subst this
    simp [bitLenAux]
  | succ k ih =>
    intro n h
    simp only [bitLenAux]
    split_ifs with h0
    · subst h0; simp
    · obtain ⟨i1, i2⟩ := ih (n / 2) (by omega)
      constructor
      · rw [pow_succ]
        omega
      · intro _
        simp only [Nat.add_sub_cancel]
        by_cases h2 : n / 2 = 0
        · have : bitLenAux k (n / 2) = 0 := by
            rw [h2]
            cases k <;> simp [bitLenAux]
          rw [this]
          simp
          omega
        · have hpos : 0 < bitLenAux k (n / 2) := by
            by_contra hz
            have : bitLenAux k (n / 2) = 0 := by omega
            rw [this] at i1
            simp at i1
            exact h2 i1
          have := i2 h2
          have e : bitLenAux k (n / 2) = (bitLenAux k (n / 2) - 1) + 1 := by omega
          rw [e, pow_succ]
          omega

theorem bitLen_bounds (n : Nat) : n < 2 ^ bitLen n ∧ (n ≠ 0 → 2 ^ (bitLen n - 1) ≤ n) :=
  bitLenAux_bounds n n (le_refl _)

theorem bitLen_le {n k : Nat} (h : n < 2 ^ k) : bitLen n ≤ k := by
  by_cases h0 : n = 0
  · subst h0
    have : bitLen 0 = 0 := rfl
    omega
  · have := (bitLen_bounds n).2 h0
    by_contra hc
    have h1 : k ≤ bitLen n - 1 := by omega
    have := Nat.pow_le_pow_right (by norm_num : 0 < 2) h1
    omega

theorem bitLen_gt {n k : Nat} (h : 2 ^ k ≤ n) : k < bitLen n := by
  have := (bitLen_bounds n).1
  by_contra hc
  have h1 : bitLen n ≤ k := by omega
  have := Nat.pow_le_pow_right (by norm_num : 0 < 2) h1
  omega

theorem roundF64_small {c : Nat} (h : c < 2 ^ 53) :
    roundF64 false c 0 false = F64.fin false c 0 := by
  have hb := bitLen_le h
  have hd : max ((bitLen c : Int) - 53) (-1074 - 0) ≤ 0 := by
    apply max_le <;> omega
  simp only [roundF64, if_pos hd, packF64]
  split_ifs with h0 h1
  · rw [h0]
  · omega
  · rfl
theorem sameMag_int {m : Nat} {e : Int} (q : Nat) (d : Nat)
    (h : sameMag m e q (d : Int) = true) : intMag m e = q * 2 ^ d := by
  simp only [sameMag, decide_eq_true_eq] at h
  simp only [intMag]
  split_ifs with he
  · obtain ⟨E, hE⟩ := Int.eq_ofNat_of_zero_le he
    subst hE
    have h1 : ((E : Int) - min (E : Int) (d : Int)).toNat = E - min E d := by omega
    have h2 : ((d : Int) - min (E : Int) (d : Int)).toNat = d - min E d := by omega
    rw [h1, h2] at h
    simp only [Int.toNat_ofNat]
    have key : m * 2 ^ (E - min E d) * 2 ^ min E d = q * 2 ^ (d - min E d) * 2 ^ min E d := by
      rw [h]
    rwa [Nat.mul_assoc, ← pow_add, Nat.mul_assoc, ← pow_add,
      Nat.sub_add_cancel (min_le_left E d), Nat.sub_add_cancel (min_le_right E d)] at key
  · have h1 : (e - min e (d : Int)).toNat = 0 := by omega
    have h2 : ((d : Int) - min e (d : Int)).toNat = d + (-e).toNat := by omega
    rw [h1, h2, pow_zero, Nat.mul_one, pow_add, ← Nat.mul_assoc] at h
    rw [h]
    exact Nat.mul_div_cancel _ (by positivity)

theorem roundsTo_int {m : Nat} {e : Int} (hlt : intMag m e < 2 ^ 53) (c : Nat)
    (h : roundsTo c m e = true) : c = intMag m e := by
  by_cases hc : c < 2 ^ 53
  · simp only [roundsTo, roundF64_small hc] at h
    have := sameMag_int c 0 (by simpa using h)
    simpa using this.symm
  · exfalso
    have hc2 : 2 ^ 53 ≤ c := by omega
    have hL := bitLen_gt hc2
    have hlow := (bitLen_bounds c).2 (by omega)
    have hdrop : max ((bitLen c : Int) - 53) (-1074 - 0) = ((bitLen c - 53 : Nat) : Int) := by
      omega
    have hpos : ¬ (((bitLen c - 53 : Nat) : Int) ≤ 0) := by omega
    have hq : 2 ^ 52 ≤ c / 2 ^ (bitLen c - 53) := by
      rw [Nat.le_div_iff_mul_le (by positivity), ← pow_add]
      have : 52 + (bitLen c - 53) = bitLen c - 1 := by omega
      rw [this]
      exact hlow
    simp only [roundsTo, roundF64, hdrop, if_neg hpos, Int.toNat_ofNat, Int.zero_add] at h
    generalize hq2 : (if (decide (2 ^ (bitLen c - 53 - 1) < c % 2 ^ (bitLen c - 53))
        || decide (c % 2 ^ (bitLen c - 53) = 2 ^ (bitLen c - 53 - 1))
          && (false || decide (c / 2 ^ (bitLen c - 53) % 2 = 1))) = true
        then c / 2 ^ (bitLen c - 53) + 1 else c / 2 ^ (bitLen c - 53)) = q at h
    have hq3 : 2 ^ 52 ≤ q := by
      rw [← hq2]
      split_ifs <;> omega
    simp only [packF64] at h
    split_ifs at h with h1 h2
    · omega
    · have := sameMag_int q (bitLen c - 53) h
      have h53 : (2 : Nat) ^ 53 = 2 ^ 52 * 2 ^ 1 := by norm_num
      have hd1 : 2 ^ 1 ≤ 2 ^ (bitLen c - 53) :=
        Nat.pow_le_pow_right (by norm_num) (by omega)
      have : 2 ^ 52 * 2 ^ 1 ≤ q * 2 ^ (bitLen c - 53) := Nat.mul_le_mul hq3 hd1
      omega

theorem shortestDecimal_int {m : Nat} {e : Int} (hlt : intMag m e < 2 ^ 53) (d fuel : Nat) :
    ∀ k, shortestDecimal m e (intMag m e) d fuel k = intMag m e := by
  induction fuel with
  | zero => intro k; rfl
  | succ n ih =>
    intro k
    simp only [shortestDecimal]
    split_ifs with h1 h2 h3 h4 h5 h6 h7
    · rfl
    · simp only [Bool.and_eq_true] at h2; exact roundsTo_int hlt _ h2.1
    · simp only [Bool.and_eq_true] at h2; exact roundsTo_int hlt _ h2.2
    · simp only [Bool.and_eq_true] at h2; exact roundsTo_int hlt _ h2.1
    · simp only [Bool.and_eq_true] at h2; exact roundsTo_int hlt _ h2.2
    · exact roundsTo_int hlt _ h6
    · exact roundsTo_int hlt _ h7
    · exact ih _

theorem formatResult_integer {m : Nat} {e : Int} (neg : Bool)
    (hint : F64.isInteger (F64.fin neg m e) = true) (hlt : intMag m e < 2 ^ 53) :
    formatResult (JSVal.number (F64.fin neg m e))
      = (if neg = true ∧ intMag m e ≠ 0 then ['-'] else []) ++ natDigits (intMag m e) := by
  have hmag : magToString m e = natDigits (intMag m e) := by
    simp only [magToString, shortestDecimal_int hlt]
    rw [if_pos (lt_trans hlt (by norm_num))]
  simp only [formatResult, hint, if_true, F64.toStr, hmag]
  by_cases h0 : intMag m e = 0
  · simp [h0]; decide
  · cases neg <;> simp [h0]
theorem stripTrailingZeros_cons (c : Char) (t : Str) :
    stripTrailingZeros (c :: t)
      = if dotZerosToEnd (c :: t) = true then [] else c :: stripTrailingZeros t := rfl

theorem stripTrailingZeros_keep (pre rest : Str) (hpre : ∀ c ∈ pre, c ≠ '.')
    (hrest : ∃ y ∈ rest, y ≠ '0') :
    stripTrailingZeros (pre ++ rest) = pre ++ stripTrailingZeros rest := by
  induction pre with
  | nil => rfl
  | cons c t ih =>
    obtain ⟨y, hy, hy0⟩ := hrest
    have hc : c ≠ '.' := hpre c (List.mem_cons_self _ _)
    have hz : dotZerosToEnd (c :: (t ++ rest)) = false := by
      simp only [dotZerosToEnd, if_neg hc]
      rw [Bool.eq_false_iff]
      intro hall
      rw [List.all_eq_true] at hall
      have := hall y (List.mem_cons_of_mem _ (List.mem_append_right _ hy))
      simp only [beq_iff_eq] at this
      exact hy0 this
    rw [List.cons_append, stripTrailingZeros_cons, hz,
      ih (fun x hx => hpre x (List.mem_cons_of_mem _ hx))]
    rfl

theorem stripTrailingZeros_fraction (a b : Char) (ha : a ≠ '.') (hb : b ≠ '.') :
    stripTrailingZeros ['.', a, b]
      = if a = '0' ∧ b = '0' then [] else if b = '0' then ['.', a] else ['.', a, b] := by
  by_cases h1 : a = '0' <;> by_cases h2 : b = '0' <;>
    simp [stripTrailingZeros, dotZerosToEnd, h1, h2, ha, hb]

theorem fixedDigits_shape (n : Nat) :
    ∃ ip a b, ip ≠ [] ∧ (∀ c ∈ ip, isDigit c = true) ∧ isDigit a = true ∧ isDigit b = true
      ∧ ip ++ [a, b] = List.replicate (3 - (natDigits n).length) '0' ++ natDigits n
      ∧ fixedDigits n = ip ++ '.' :: [a, b] := by
  have hpad : ∀ c ∈ List.replicate (3 - (natDigits n).length) '0' ++ natDigits n,
      isDigit c = true := by
    intro c hc
    rcases List.mem_append.mp hc with h | h
    · rw [(List.mem_replicate.mp h).2]; decide
    · exact natDigits_isDigit n c h
  have hlen : 3 ≤ (List.replicate (3 - (natDigits n).length) '0' ++ natDigits n).length := by
    simp only [List.length_append, List.length_replicate]; omega
  simp only [fixedDigits]
  generalize List.replicate (3 - (natDigits n).length) '0' ++ natDigits n = padded at hpad hlen
  have hsplit := List.take_append_drop (padded.length - 2) padded
  have hdl : (padded.drop (padded.length - 2)).length = 2 := by
    rw [List.length_drop]; omega
  obtain ⟨a, b, hab⟩ : ∃ a b, padded.drop (padded.length - 2) = [a, b] := by
    match hd : padded.drop (padded.length - 2), hdl with
    | [a, b], _ => exact ⟨a, b, rfl⟩
  refine ⟨padded.take (padded.length - 2), a, b, ?_, ?_, ?_, ?_, ?_, ?_⟩
  · intro h
    have := congrArg List.length h
    simp only [List.length_take, List.length_nil] at this
    omega
  · intro c hc
    exact hpad c (List.mem_of_mem_take hc)
  · exact hpad a (List.mem_of_mem_drop (by rw [hab]; simp))
  · exact hpad b (List.mem_of_mem_drop (by rw [hab]; simp))
  · rw [← hab]; exact hsplit
  · rw [hab]

theorem roundHundredths_nearest (m : Nat) (k : Nat) :
    2 * 2 ^ k * ((2 * (m * 100) + 2 ^ k) / (2 * 2 ^ k)) ≤ 2 * (m * 100) + 2 ^ k
      ∧ 2 * (m * 100) + 2 ^ k < 2 * 2 ^ k * ((2 * (m * 100) + 2 ^ k) / (2 * 2 ^ k) + 1) := by
  have hp : 0 < 2 * 2 ^ k := by positivity
  constructor
  · exact Nat.mul_div_le _ _
  · exact Nat.lt_mul_div_succ _ hp

theorem formatResult_fraction {m : Nat} {e : Int} (neg : Bool) (hm : m < 2 ^ 53)
    (hint : F64.isInteger (F64.fin neg m e) = false) :
    e < 0 ∧ ∃ ip a b, ip ≠ [] ∧ (∀ c ∈ ip, isDigit c = true)
      ∧ isDigit a = true ∧ isDigit b = true
      ∧ ip ++ [a, b] = List.replicate (3 - (natDigits (roundHundredths m e)).length) '0'
          ++ natDigits (roundHundredths m e)
      ∧ formatResult (JSVal.number (F64.fin neg m e))
        = (if neg = true then ['-'] else []) ++ ip
            ++ (if a = '0' ∧ b = '0' then [] else if b = '0' then ['.', a] else ['.', a, b]) := by
  simp only [F64.isInteger] at hint
  have he : e < 0 := by
    by_contra hc
    rw [if_pos (by omega)] at hint
    exact Bool.noConfusion hint
  rw [if_neg (by omega)] at hint
  simp only [decide_eq_false_iff_not] at hint
  have hm0 : m ≠ 0 := by
    rintro rfl
    simp at hint
  have hbig : magAtLeast1e21 m e = false := by
    simp only [magAtLeast1e21, if_neg (by omega : ¬ 0 ≤ e), decide_eq_false_iff_not, not_le]
    have h1 : (1 : Nat) ≤ 2 ^ (-e).toNat := Nat.one_le_two_pow
    have h2 : (2 : Nat) ^ 53 < 10 ^ 21 := by norm_num
    calc m < 10 ^ 21 * 1 := by omega
      _ ≤ 10 ^ 21 * 2 ^ (-e).toNat := Nat.mul_le_mul_left _ h1
  refine ⟨he, ?_⟩
  obtain ⟨ip, a, b, h1, h2, h3, h4, h5, h6⟩ := fixedDigits_shape (roundHundredths m e)
  refine ⟨ip, a, b, h1, h2, h3, h4, h5, ?_⟩
  have hisInt : F64.isInteger (F64.fin neg m e) = false := by
    simp only [F64.isInteger, if_neg (by omega : ¬ 0 ≤ e), decide_eq_false_iff_not]
    exact hint
  simp only [formatResult, hisInt, F64.toFixed2, hbig, h6]
  have hsign : (if (neg && decide (m ≠ 0)) = true then ['-'] else ([] : Str))
      = (if neg = true then ['-'] else []) := by
    cases neg <;> simp [hm0]
  rw [hsign]
  have hpre : ∀ c ∈ (if neg = true then ['-'] else ([] : Str)) ++ ip, c ≠ '.' := by
    intro c hc
    rcases List.mem_append.mp hc with h | h
    · cases neg
      · simp at h
      · simp at h; rw [h]; decide
    · exact isDigit_ne_dot (h2 c h)
  have e1 : (if neg = true then ['-'] else ([] : Str)) ++ (ip ++ '.' :: [a, b])
      = ((if neg = true then ['-'] else ([] : Str)) ++ ip) ++ ['.', a, b] := by simp
  simp only [Bool.false_eq_true, if_false]
  rw [e1, stripTrailingZeros_keep _ _ hpre ⟨'.', by simp, by decide⟩,
    stripTrailingZeros_fraction a b (isDigit_ne_dot h3) (isDigit_ne_dot h4)]
/-- C14, as the code has it: for every finite Number `(-1)^neg * m * 2^e` with a
binary64 significand (`m < 2^53`): when it is an integer of magnitude below
`2^53`, `formatResult` gives the decimal numeral of that integer with no
fractional part (with `-` before it when negative, `0` for both zeros); when it
is not an integer, `formatResult` gives it rounded to the nearest hundredth `h`
(the larger magnitude on a tie), written with the integer digits `ip` and the
two fraction digits `a b` of `h`, the trailing zeros removed and the point
removed too when no fraction digit is left: so the text has at most two
fraction digits and ends neither in `0` after a point nor in a point. -/
theorem formatResult_of_finite (neg : Bool) (m : Nat) (e : Int) (hm : m < 2 ^ 53) :
    (F64.isInteger (F64.fin neg m e) = true → intMag m e < 2 ^ 53 →
        formatResult (JSVal.number (F64.fin neg m e))
          = (if neg = true ∧ intMag m e ≠ 0 then ['-'] else []) ++ natDigits (intMag m e))
      ∧ (F64.isInteger (F64.fin neg m e) = false →
          ∃ ip a b, ip ≠ [] ∧ (∀ c ∈ ip, isDigit c = true)
            ∧ isDigit a = true ∧ isDigit b = true
            ∧ ip ++ [a, b]
                = List.replicate (3 - (natDigits (roundHundredths m e)).length) '0'
                    ++ natDigits (roundHundredths m e)
            ∧ (2 * 2 ^ (-e).toNat * roundHundredths m e ≤ 2 * (m * 100) + 2 ^ (-e).toNat
                ∧ 2 * (m * 100) + 2 ^ (-e).toNat
                    < 2 * 2 ^ (-e).toNat * (roundHundredths m e + 1))
            ∧ formatResult (JSVal.number (F64.fin neg m e))
              = (if neg = true then ['-'] else []) ++ ip
                  ++ (if a = '0' ∧ b = '0' then []
                      else if b = '0' then ['.', a] else ['.', a, b])) := by
  constructor
  · intro hint hlt
    exact formatResult_integer neg hint hlt
  · intro hint
    obtain ⟨he, ip, a, b, h1, h2, h3, h4, h5, h6⟩ := formatResult_fraction neg hm hint
    refine ⟨ip, a, b, h1, h2, h3, h4, h5, ?_, h6⟩
    have hr : roundHundredths m e
        = (2 * (m * 100) + 2 ^ (-e).toNat) / (2 * 2 ^ (-e).toNat) := by
      simp only [roundHundredths, if_neg (by omega : ¬ 0 ≤ e)]
    rw [hr]
    exact roundHundredths_nearest m _

/-- C14, witnesses: `10/4` gives `2.5`, `9/3` gives `3`, `1/3` gives `0.33`; the
quotient `9/3` is the integer 3 and the quotient `1/3` is no integer, its nearest
hundredth being 33. -/
theorem formatResult_of_finite_witness :
    evaluateExpression "10/4".toList = "2.5".toList
      ∧ evaluateExpression "9/3".toList = "3".toList
      ∧ evaluateExpression "1/3".toList = "0.33".toList
      ∧ F64.div (parseFloat "9".toList []) (parseFloat "3".toList [])
          = F64.fin false 6755399441055744 (-51)
      ∧ formatResult (JSVal.number (F64.fin false 6755399441055744 (-51)))
          = (if false = true ∧ intMag 6755399441055744 (-51) ≠ 0 then ['-'] else [])
              ++ natDigits (intMag 6755399441055744 (-51))
      ∧ F64.div (parseFloat "1".toList []) (parseFloat "3".toList [])
          = F64.fin false 6004799503160661 (-54)
      ∧ roundHundredths 6004799503160661 (-54) = 33
      ∧ F64.isInteger (F64.fin false 6004799503160661 (-54)) = false :=
  ⟨by decide!, by decide!, by decide!, by decide!,
    (formatResult_of_finite false 6755399441055744 (-51) (by norm_num)).1 (by decide!)
      (by decide!),
    by decide!, by decide!, by decide!⟩

/-- C14, counterexample: the integer `123456789012345678901234567890` is written
with sixteen fraction digits and an exponent, `10^21` is written `1e+21`, and
`2^60 = 1152921504606846976` is written `1152921504606847000`, the shortest
numeral that reads back as the same Number. -/
theorem formatResult_large_integer_counterexample :
    F64.isInteger (parseFloat "123456789012345678901234567890".toList []) = true
      ∧ formatResult (JSVal.number (parseFloat "123456789012345678901234567890".toList []))
          = "1.2345678901234568e+29".toList
      ∧ evaluateExpression "123456789012345678901234567890".toList
          = "1.2345678901234568e+29".toList
      ∧ evaluateExpression "1000000000000000000000".toList = "1e+21".toList
      ∧ evaluateExpression "1152921504606846976".toList = "1152921504606847000".toList :=
  ⟨by decide!, by decide!, by decide!, by decide!, by decide!⟩

/-! ## When the resolver yields `ERROR` (C9) -/

theorem magToString_chars (P : Char → Prop) (hd : ∀ c, isDigit c = true → P c)
    (he : P 'e') (hp : P '+') (hdot : P '.') (m : Nat) (e : Int) :
    ∀ c ∈ magToString m e, P c := by
  intro c hc
  have hn : ∀ n, ∀ x ∈ natDigits n, P x := fun n x hx => hd x (natDigits_isDigit n x hx)
  simp only [magToString] at hc
  split_ifs at hc with hw
  · exact hn _ c hc
  · have hsub := dropTrailingZeros_subset
      (natDigits (shortestDecimal m e (intMag m e) (natDigits (intMag m e)).length
        (natDigits (intMag m e)).length 1))
    cases hz : dropTrailingZeros (natDigits (shortestDecimal m e (intMag m e)
        (natDigits (intMag m e)).length (natDigits (intMag m e)).length 1)) with
    | nil =>
      rw [hz] at hc
      exact hn _ c hc
    | cons a cs =>
      rw [hz] at hc hsub
      have ha : P a := hn _ a (hsub a (List.mem_cons_self _ _))
      have hcs : ∀ x ∈ cs, P x :=
        fun x hx => hn _ x (hsub x (List.mem_cons_of_mem _ hx))
      cases cs with
      | nil =>
        simp only [List.mem_cons] at hc
        rcases hc with h | h | h | h
        · rw [h]; exact ha
        · rw [h]; exact he
        · rw [h]; exact hp
        · exact hn _ c h
      | cons b cs2 =>
        simp only [List.mem_cons, List.mem_append] at hc
        rcases hc with h | h | (h | h) | h | h | h
        · rw [h]; exact ha
        · rw [h]; exact hdot
        · rw [h]; exact hcs b (List.mem_cons_self _ _)
        · exact hcs c (List.mem_cons_of_mem _ h)
        · rw [h]; exact he
        · rw [h]; exact hp
        · exact hn _ c h

theorem isDigit_ne_E {c : Char} (h : isDigit c = true) : c ≠ 'E' := by
  rintro rfl; exact absurd h (by decide)

theorem fixedDigits_ne_E (n : Nat) : ∀ c ∈ fixedDigits n, c ≠ 'E' := by
  obtain ⟨ip, a, b, _, h2, h3, h4, _, h6⟩ := fixedDigits_shape n
  rw [h6]
  intro c hc
  rcases List.mem_append.mp hc with h | h
  · exact isDigit_ne_E (h2 c h)
  · simp only [List.mem_cons, List.mem_singleton, List.not_mem_nil, or_false] at h
    rcases h with h | h | h
    · rw [h]; decide
    · rw [h]; exact isDigit_ne_E h3
    · rw [h]; exact isDigit_ne_E h4

theorem formatResult_number_ne_E (x : F64) :
    ∀ c ∈ formatResult (JSVal.number x), c ≠ 'E' := by
  have hmag : ∀ m e, ∀ c ∈ magToString m e, c ≠ 'E' :=
    magToString_chars (fun c => c ≠ 'E') (fun c h => isDigit_ne_E h) (by decide) (by decide)
      (by decide)
  have hstr : ∀ c ∈ x.toStr, c ≠ 'E' := by
    cases x with
    | nan => decide
    | inf neg => cases neg <;> decide
    | fin neg m e =>
      simp only [F64.toStr]
      split_ifs
      · decide
      · intro c hc
        rcases List.mem_cons.mp hc with h | h
        · rw [h]; decide
        · exact hmag m e c h
      · exact hmag m e
  have hfix : ∀ c ∈ x.toFixed2, c ≠ 'E' := by
    cases x with
    | nan => decide
    | inf neg => cases neg <;> decide
    | fin neg m e =>
      simp only [F64.toFixed2]
      intro c hc
      by_cases hs : (neg && decide (m ≠ 0)) = true
      · rw [if_pos hs] at hc
        split_ifs at hc
        · rcases List.mem_cons.mp hc with h | h
          · rw [h]; decide
          · exact hmag m e c h
        · rcases List.mem_cons.mp hc with h | h
          · rw [h]; decide
          · exact fixedDigits_ne_E _ c h
      · rw [if_neg hs] at hc
        simp only [List.nil_append] at hc
        split_ifs at hc
        · exact hmag m e c hc
        · exact fixedDigits_ne_E _ c hc
  intro c hc
  simp only [formatResult] at hc
  split_ifs at hc
  · exact hstr c hc
  · exact hfix c (stripTrailingZeros_subset _ c hc)

theorem formatResult_eq_ERROR (v : JSVal) : formatResult v = ERROR ↔ v = JSVal.undefined := by
  constructor
  · intro h
    cases v with
    | undefined => rfl
    | number x =>
      exfalso
      have := formatResult_number_ne_E x 'E' (by rw [h]; decide)
      exact this rfl
  · intro h
    rw [h]
    rfl

/-- The text `safeEval` produces is `ERROR` exactly when the evaluation leaves no
value on the operand stack. -/
theorem safeEval_eq_ERROR (s : Str) :
    safeEval s = ERROR ↔ evalStack ( infixToPostfix (tokenize s)) = [] := by
  simp only [safeEval, formatResult_eq_ERROR, evaluatePostfix]
  cases h : (evalStack ( infixToPostfix (tokenize s))).getLast? with
  | none =>
    simp only [true_iff]
    exact List.getLast?_eq_none_iff.mp h
  | some x =>
    constructor
    · intro hx
      cases hx
    · intro hnil
      rw [hnil] at h
      simp at h

/-- C9, as the code has it: the text `ERROR` a nested bracket expression evaluates
to is deleted by the character filter of `sanitizeInput`, so the enclosing
payload is evaluated as if every nested expression whose value is `ERROR` were
replaced by the empty text (and every other one by its value); and the enclosing
payload evaluates to `ERROR` exactly when what then remains leaves no value on
the operand stack. -/
theorem nested_error_is_dropped (expr : Str) :
    evaluateExpression expr
        = safeEval (sanitizeInput (replaceAll
            (fun p => if evaluateExpression p = ERROR then [] else evaluateExpression p) expr))
      ∧ (evaluateExpression expr = ERROR ↔
          evalStack ( infixToPostfix (tokenize (sanitizeInput (replaceAll
            (fun p => if evaluateExpression p = ERROR then [] else evaluateExpression p)
            expr)))) = []) := by
  have h1 : evaluateExpression expr
      = safeEval (sanitizeInput (replaceAll
          (fun p => if evaluateExpression p = ERROR then [] else evaluateExpression p) expr)) := by
    rw [evaluateExpression_eq]
    simp only [sanitizeInput, resolveNested, replaceAll]
    rw [filter_replaceFrom evaluateExpression
      (fun p => if evaluateExpression p = ERROR then [] else evaluateExpression p)]
    intro c
    by_cases h : evaluateExpression c = ERROR
    · simp only [h, if_true]
      decide
    · simp only [h, if_false]
  refine ⟨h1, ?_⟩
  rw [h1]
  exact safeEval_eq_ERROR _

/-- C9, the amended claim at concrete inputs: in `2=()` the nested `ERROR` is
dropped, the value 2 remains and the result is `2`; in `(=())` nothing but the
parentheses remains, no value is left and the result is `ERROR`. -/
theorem nested_error_is_dropped_witness :
    evaluateExpression "2=()".toList = "2".toList
      ∧ evaluateExpression "(=())".toList = ERROR
      ∧ sanitizeInput (replaceAll
          (fun p => if evaluateExpression p = ERROR then [] else evaluateExpression p)
          "(=())".toList) = "()".toList
      ∧ evalStack ( infixToPostfix (tokenize "()".toList)) = [] :=
  ⟨by decide!, (nested_error_is_dropped "(=())".toList).2.mpr (by decide!), by decide!,
    by decide⟩

end InstantCalc
